import Mathlib

/-!
Verification of the MPM (Malhotra–Kumar–Maheshwari) maximum-flow implementation
in `maximum_flow.py`.

The program represents a network as a Python dict of dicts
`{u: {v: {'cap': c, 'flow': f}}}`.  We embed dicts with small-integer keys as
association lists kept in ascending key order, which matches CPython 2 dict
iteration order for small non-negative integer keys (hash(i) = i); all node
ids appearing in the program's data are such integers.  Loops driven by
worklists are embedded with an explicit fuel parameter; `Res.fuel` marks fuel
exhaustion (an artifact of the embedding, never reached by the runs we
evaluate) and `Res.err` marks an uncaught Python exception such as `KeyError`.
-/

set_option maxRecDepth 100000

namespace MPM

/-- Result of running a piece of embedded Python code: a value, an uncaught
exception (`err`, e.g. `KeyError`), or fuel exhaustion (`fuel`). -/
inductive Res (α : Type) where
  | ok : α → Res α
  | err : Res α
  | fuel : Res α
deriving DecidableEq, Repr

instance : Monad Res where
  pure := Res.ok
  bind r f := match r with
    | .ok a => f a
    | .err => .err
    | .fuel => .fuel

/-- Association list with ascending `Nat` keys: the embedding of a CPython 2
dict with small integer keys (iteration order is ascending). -/
abbrev Dict (α : Type) := List (Nat × α)

/-- `d[k]` as an option. -/
def dlookup {α : Type} : Dict α → Nat → Option α
  | [], _ => none
  | (k', v') :: rest, k => if k = k' then some v' else dlookup rest k

/-- `k in d`. -/
def dmem {α : Type} (d : Dict α) (k : Nat) : Bool :=
  (dlookup d k).isSome

/-- `d[k] = v`: replace or insert keeping ascending key order. -/
def dset {α : Type} : Dict α → Nat → α → Dict α
  | [], k, v => [(k, v)]
  | (k', v') :: rest, k, v =>
    if k < k' then (k, v) :: (k', v') :: rest
    else if k = k' then (k, v) :: rest
    else (k', v') :: dset rest k v

/-- `del d[k]` (keys are unique in our dicts, so removing every pair with the
key is the same as removing the entry). -/
def derase {α : Type} (d : Dict α) (k : Nat) : Dict α :=
  d.filter (fun p => p.1 != k)

/-- `d.keys()`. -/
def dkeys {α : Type} (d : Dict α) : List Nat := d.map Prod.fst

/-- `d.get(k, dflt)`. -/
def dgetD {α : Type} (d : Dict α) (k : Nat) (dflt : α) : α :=
  (dlookup d k).getD dflt

/-- Direction tag `'F'` / `'B'` of a residual edge. -/
inductive Dir where
  | F : Dir
  | B : Dir
deriving DecidableEq, Repr

/-- An arc record `{'cap': c, 'flow': f}` of the main network. -/
structure Arc where
  cap : Int
  flow : Int
deriving DecidableEq, Repr

/-- A residual / auxiliary edge record `{'cap': c, 'direction': d}`, with the
`'used'` marker that push/pull may add. -/
structure REdge where
  cap : Int
  dir : Dir
  used : Bool
deriving DecidableEq, Repr

/-- The main network: dict node → dict node → arc. -/
abbrev Net := Dict (Dict Arc)

/-- Residual / auxiliary graph: dict node → dict node → residual edge. -/
abbrev Graph := Dict (Dict REdge)

/-- Throughput table: node → (in-capacity, out-capacity). -/
abbrev Thr := Dict (Int × Int)

/-- A phase's delta map `g`: node → node → signed integer. -/
abbrev DeltaMap := Dict (Dict Int)

/-- `sys.maxint` on a 64-bit CPython 2. -/
def maxint : Int := 9223372036854775807

/-- Write edge `g[u][v] := e` (creating `g[u]` if needed, as the source does
with `if u not in g: g[u] = {}`). -/
def setEdge (g : Graph) (u v : Nat) (e : REdge) : Graph :=
  dset g u (dset (dgetD g u []) v e)

/-- `delete_node(node, network)` (lines 125–133): removes `node`'s own entry
and every edge into `node`.  Because the deletion of `node`'s key happens
inside the `for` loop over `network.items()`, nothing at all happens when the
dict is empty. -/
def delete_node (node : Nat) (g : Graph) : Graph :=
  match g with
  | [] => []
  | _ => (derase g node).map (fun p => (p.1, derase p.2 node))

/-- Body of the edge loop of `build_residual_graph` (lines 145–162): process
arc `(now, e)` with record `a`, updating the residual graph and the
queue/visited set. -/
def brEdge (now : Nat) (e : Nat) (a : Arc)
    (st : Graph × List Nat × List Nat) : Graph × List Nat × List Nat :=
  let (nr, que, visited) := st
  let r := a.cap - a.flow
  let nr := if dmem nr now then nr else dset nr now []
  let nr := if dmem nr e then nr else dset nr e []
  let nr := if r > 0 then setEdge nr now e ⟨r, Dir.F, false⟩ else nr
  let nr := if a.flow > 0 then setEdge nr e now ⟨a.flow, Dir.B, false⟩ else nr
  let que := if visited.contains e then que else que ++ [e]
  let visited := if visited.contains e then visited else visited ++ [e]
  (nr, que, visited)

/-- The BFS worklist loop of `build_residual_graph`. -/
def brLoop (network : Net) (sink : Nat) :
    Nat → List Nat → List Nat → Graph → Res Graph
  | 0, _, _, _ => .fuel
  | _ + 1, [], _, nr => .ok nr
  | n + 1, now :: que, visited, nr =>
    match dlookup network now with
    | none => .err
    | some adj =>
      let (nr, que, visited) :=
        adj.foldl (fun st (p : Nat × Arc) => brEdge now p.1 p.2 st)
          (nr, que, visited)
      brLoop network sink n que visited nr

/-- `build_residual_graph(source, sink, network)` (lines 135–164). -/
def build_residual_graph (fuel : Nat) (source sink : Nat) (network : Net) :
    Res Graph :=
  brLoop network sink fuel [source] [source] []

/-- Body of the edge loop of `build_auxiliary` (lines 180–190): process
residual edge `(now, e)` carrying `ed`, given `now`'s level `lv`. -/
def baEdge (sink : Nat) (now : Nat) (lv : Int) (e : Nat) (ed : REdge)
    (st : Graph × Dict Int × List Nat × List Nat) :
    Graph × Dict Int × List Nat × List Nat :=
  let (na, vl, que, visited) := st
  if dmem vl e ∧ e ≠ sink then st
  else
    let na := setEdge na now e ⟨ed.cap, ed.dir, false⟩
    let vl := dset vl e (lv + 1)
    let que := if visited.contains e then que else que ++ [e]
    let visited := if visited.contains e then visited else visited ++ [e]
    (na, vl, que, visited)

/-- The BFS worklist loop of `build_auxiliary` (lines 175–190).  Note the
source's `logging.debug('...', now, network[now].keys())` evaluates
`network[now]` before `na[now] = {}` runs, so a node absent from the residual
graph raises `KeyError` here. -/
def baLoop (network : Graph) (sink : Nat) :
    Nat → List Nat → Dict Int → List Nat → Graph → Res (Graph × Dict Int)
  | 0, _, _, _, _ => .fuel
  | _ + 1, [], vl, _, na => .ok (na, vl)
  | n + 1, now :: que, vl, visited, na =>
    match dlookup network now with
    | none => .err
    | some adj =>
      let na := dset na now []
      match dlookup vl now with
      | none => .err
      | some lv =>
        let (na, vl, que, visited) :=
          adj.foldl (fun st (p : Nat × REdge) => baEdge sink now lv p.1 p.2 st)
            (na, vl, que, visited)
        baLoop network sink n que vl visited na

/-- The truncation loop of `build_auxiliary` (lines 200–206): delete every
node of level ≥ the sink's level, except the sink itself (which sets
`complete`). -/
def baTrunc (sink : Nat) : List Nat → Graph → Bool → Graph × Bool
  | [], na, complete => (na, complete)
  | node :: rest, na, complete =>
    if node = sink then baTrunc sink rest na true
    else baTrunc sink rest (delete_node node na) complete

/-- `build_auxiliary(source, sink, network)` (lines 167–208), also returning
the recorded vertex levels `vl` for specification purposes.  `ok none` is the
function's `return None`. -/
def build_auxiliary_vl (fuel : Nat) (source sink : Nat) (network : Graph) :
    Res (Option (Graph × Dict Int)) := do
  let (na, vl) ← baLoop network sink fuel [source] [(source, 0)] [source] []
  if ¬ dmem na sink then return none
  match dlookup vl sink with
  | none => Res.err
  | some sink_level =>
    let doomed := (vl.filter (fun p => p.2 ≥ sink_level)).map Prod.fst
    let (na, complete) := baTrunc sink doomed na false
    if complete then return some (na, vl) else return none

/-- `build_auxiliary` as the program exposes it (the levels are local). -/
def build_auxiliary (fuel : Nat) (source sink : Nat) (network : Graph) :
    Res (Option Graph) := do
  let r ← build_auxiliary_vl fuel source sink network
  return r.map Prod.fst

/-- `build_level_graph(source, sink, network)` (lines 211–214). -/
def build_level_graph (fuel : Nat) (source sink : Nat) (network : Net) :
    Res (Option Graph) := do
  let nr ← build_residual_graph fuel source sink network
  build_auxiliary fuel source sink nr

/-- `calc_throughput(source, sink, auxiliary)` (lines 217–234): per node, the
pair (in-capacity, out-capacity); `sys.maxint` stands for unbounded at the
source's in side and the sink's out side. -/
def calc_throughput (source sink : Nat) (aux : Graph) : Thr :=
  aux.foldl
    (fun thr p =>
      let n := p.1
      let in_cap : Int :=
        if n = source then maxint
        else aux.foldl
          (fun acc q =>
            match dlookup q.2 n with
            | some e => acc + e.cap
            | none => acc) 0
      let out_cap : Int :=
        if n = sink then maxint
        else p.2.foldl (fun acc q => acc + q.2.cap) 0
      dset thr n (in_cap, out_cap))
    []

/-- `throughput[n][0] -= c` (KeyError when `n` is absent). -/
def thrSubIn (thr : Thr) (n : Nat) (c : Int) : Res Thr :=
  match dlookup thr n with
  | none => .err
  | some io => .ok (dset thr n (io.1 - c, io.2))

/-- `throughput[n][1] -= c`. -/
def thrSubOut (thr : Thr) (n : Nat) (c : Int) : Res Thr :=
  match dlookup thr n with
  | none => .err
  | some io => .ok (dset thr n (io.1, io.2 - c))

/-- `throughput[n][1] += c`. -/
def thrAddOut (thr : Thr) (n : Nat) (c : Int) : Res Thr :=
  match dlookup thr n with
  | none => .err
  | some io => .ok (dset thr n (io.1, io.2 + c))

/-- One pass of the `while True` loop of `delete_zero_throughput`
(lines 238–267), over the snapshot of the table's keys.  `ok none` is the
function's early `return False`. -/
def dztPass (source sink : Nat) :
    List Nat → Graph → Thr → Bool → Res (Option (Graph × Thr × Bool))
  | [], aux, thr, hz => .ok (some (aux, thr, hz))
  | node :: rest, aux, thr, hz =>
    match dlookup thr node with
    | none => dztPass source sink rest aux thr hz
    | some io =>
      if min io.1 io.2 = 0 then
        if node = source ∨ node = sink then .ok none
        else
          match dlookup aux node with
          | none => .err
          | some adj => do
            let thr ← adj.foldlM (fun thr q => thrSubIn thr q.1 q.2.cap) thr
            let preds := (aux.filter (fun p => dmem p.2 node)).map
              (fun p => (p.1, (dgetD p.2 node ⟨0, Dir.F, false⟩).cap))
            let thr ← preds.foldlM (fun thr q => thrSubOut thr q.1 q.2) thr
            let aux := delete_node node aux
            let thr := derase thr node
            dztPass source sink rest aux thr true
      else dztPass source sink rest aux thr hz

/-- `delete_zero_throughput(source, sink, auxiliary, throughput)`
(lines 237–268): iterate passes to a fixpoint; `ok none` is `return False`. -/
def dztLoop (source sink : Nat) : Nat → Graph → Thr → Res (Option (Graph × Thr))
  | 0, _, _ => .fuel
  | n + 1, aux, thr => do
    match ← dztPass source sink (dkeys thr) aux thr false with
    | none => return none
    | some (aux, thr, hz) =>
      if hz then dztLoop source sink n aux thr else return some (aux, thr)

/-- `g[a][b] += m` with defaulting, as in lines 310–314 / 351–355. -/
def gAdd (g : DeltaMap) (a b : Nat) (m : Int) : DeltaMap :=
  let adj := dgetD g a []
  dset g a (dset adj b (dgetD adj b 0 + m))

/-- The `for n in auxiliary[v].keys()` loop of `push` (lines 281–317), over
the snapshot `ns` of `v`'s successor keys.  State: auxiliary graph,
throughput table, delta map, requirement dict, queue. -/
def pushInner (v : Nat) :
    List Nat → Graph × Thr × DeltaMap × Dict Int × List Nat →
    Res (Graph × Thr × DeltaMap × Dict Int × List Nat)
  | [], st => .ok st
  | n :: rest, (aux, thr, g, req, que) =>
    match dlookup req v with
    | none => .err
    | some rv =>
      if rv = 0 then .ok (aux, thr, g, req, que)
      else
        match dlookup aux v with
        | none => .err
        | some adj =>
          match dlookup adj n with
          | none => .err
          | some e =>
            if e.used then pushInner v rest (aux, thr, g, req, que)
            else do
              let m := min e.cap rv
              let newcap := e.cap - m
              let aux := setEdge aux v n ⟨newcap, e.dir, e.used⟩
              let (aux, thr) ←
                if newcap = 0 then do
                  let aux := setEdge aux v n ⟨newcap, e.dir, true⟩
                  let outs := dkeys (dgetD aux v [])
                  let thr ← outs.foldlM (fun thr nn => thrSubIn thr nn m) thr
                  pure (aux, thr)
                else pure (aux, thr)
              let req := dset req v (rv - m)
              match dlookup req n with
              | none => Res.err
              | some rn => do
                let req := dset req n (rn + m)
                let que := que ++ [n]
                let g :=
                  if e.dir = Dir.B then gAdd g n v (-m) else gAdd g v n m
                pushInner v rest (aux, thr, g, req, que)

/-- The `while len(q) > 0` loop of `push`. -/
def pushLoop : Nat → List Nat → Graph × Thr × DeltaMap × Dict Int →
    Res (Graph × Thr × DeltaMap)
  | 0, _, _ => .fuel
  | _ + 1, [], (aux, thr, g, _) => .ok (aux, thr, g)
  | n + 1, v :: que, (aux, thr, g, req) =>
    match dlookup aux v with
    | none => .err
    | some adj => do
      let (aux, thr, g, req, que) ←
        pushInner v (dkeys adj) (aux, thr, g, req, que)
      pushLoop n que (aux, thr, g, req)

/-- `push(y, h, auxiliary, throughput, g)` (lines 271–318). -/
def push (fuel : Nat) (y : Nat) (h : Int) (aux : Graph) (thr : Thr)
    (g : DeltaMap) : Res (Graph × Thr × DeltaMap) :=
  let req := dset ((aux.map (fun p => (p.1, (0 : Int)))).filter
    (fun p => p.1 ≠ y)) y h
  pushLoop fuel [y] (aux, thr, g, req)

/-- The `for u, d in auxiliary.iteritems()` loop of `pull` (lines 329–358),
over the snapshot `us` of all node keys.  The state carries the node `v`
being pulled into, because the source's `u, v = v, u` swap on a
backward-direction edge overwrites the loop variable `v` for the remaining
iterations of this scan. -/
def pullInner :
    List Nat → Nat × Graph × Thr × DeltaMap × Dict Int × List Nat →
    Res (Nat × Graph × Thr × DeltaMap × Dict Int × List Nat)
  | [], st => .ok st
  | u :: rest, (v, aux, thr, g, req, que) =>
    match dlookup req v with
    | none => .err
    | some rv =>
      if rv = 0 then .ok (v, aux, thr, g, req, que)
      else
        match dlookup aux u with
        | none => .err
        | some adj =>
          match dlookup adj v with
          | none => pullInner rest (v, aux, thr, g, req, que)
          | some e =>
            if e.used then pullInner rest (v, aux, thr, g, req, que)
            else do
              let m := min e.cap rv
              let newcap := e.cap - m
              let aux := setEdge aux u v ⟨newcap, e.dir, e.used⟩
              let (aux, thr) ←
                if newcap = 0 then do
                  let aux := setEdge aux u v ⟨newcap, e.dir, true⟩
                  let thr ← thrSubIn thr v m
                  let thr ← thrAddOut thr u m
                  pure (aux, thr)
                else pure (aux, thr)
              let req := dset req v (rv - m)
              match dlookup req u with
              | none => Res.err
              | some ru => do
                let req := dset req u (ru + m)
                let que := que ++ [u]
                let g :=
                  if e.dir = Dir.B then gAdd g v u (-m) else gAdd g u v m
                let vNext := if e.dir = Dir.B then u else v
                pullInner rest (vNext, aux, thr, g, req, que)

/-- The `while q` loop of `pull`. -/
def pullLoop : Nat → List Nat → Graph × Thr × DeltaMap × Dict Int →
    Res (Graph × Thr × DeltaMap)
  | 0, _, _ => .fuel
  | _ + 1, [], (aux, thr, g, _) => .ok (aux, thr, g)
  | n + 1, v :: que, (aux, thr, g, req) => do
    let (_, aux, thr, g, req, que) ←
      pullInner (dkeys aux) (v, aux, thr, g, req, que)
    pullLoop n que (aux, thr, g, req)

/-- `pull(s, y, h, auxiliary, throughput, g)` (lines 321–359).  The parameter
`s` is unused by the source as well. -/
def pull (fuel : Nat) (_s : Nat) (y : Nat) (h : Int) (aux : Graph) (thr : Thr)
    (g : DeltaMap) : Res (Graph × Thr × DeltaMap) :=
  let req := dset ((aux.map (fun p => (p.1, (0 : Int)))).filter
    (fun p => p.1 ≠ y)) y h
  pullLoop fuel [y] (aux, thr, g, req)

/-- The minimum-throughput selection of `construct_blocking_flow`
(lines 373–378): first strictly smaller wins, starting from
`(None, sys.maxint)`. -/
def cbfSelect (thr : Thr) : Option Nat × Int :=
  thr.foldl
    (fun best p =>
      let t := min p.2.1 p.2.2
      if t < best.2 then (some p.1, t) else best)
    (none, maxint)

/-- The `while True` loop of `construct_blocking_flow` (lines 362–384).  The
Python function mutates `auxiliary` and `g` in place and returns nothing; the
caller only consumes `g` afterwards, so the loop's result is the delta map. -/
def cbfLoop (inner : Nat) (source sink : Nat) :
    Nat → Graph → DeltaMap → Res DeltaMap
  | 0, _, _ => .fuel
  | n + 1, aux, g => do
    let thr := calc_throughput source sink aux
    match ← dztLoop source sink inner aux thr with
    | none => return g
    | some (aux, thr) =>
      if ¬ (dmem aux source ∧ dmem aux sink) then return g
      else
        match cbfSelect thr with
        | (none, _) => Res.err
        | (some y, h) => do
          let (aux, thr, g) ← push inner y h aux thr g
          let (aux, _, g) ← pull inner source y h aux thr g
          cbfLoop inner source sink n aux g

/-- `construct_blocking_flow(source, sink, auxiliary, network, g)`; the
`network` parameter is unused by the source. -/
def construct_blocking_flow (fuel : Nat) (source sink : Nat) (aux : Graph)
    (g : DeltaMap) : Res DeltaMap :=
  cbfLoop fuel source sink fuel aux g

/-- `flow_add(network, g)` (lines 387–391): add each recorded delta onto the
arc's flow; `KeyError` when a key pair is not an arc of the network. -/
def flow_add (network : Net) (g : DeltaMap) : Res Net :=
  g.foldlM
    (fun net p =>
      p.2.foldlM
        (fun net q =>
          match dlookup net p.1 with
          | none => Res.err
          | some adj =>
            match dlookup adj q.1 with
            | none => Res.err
            | some a => Res.ok (dset net p.1 (dset adj q.1 ⟨a.cap, a.flow + q.2⟩)))
        net)
    network

/-- The `while True` driver loop of `mpm` (lines 395–402), counting the
phases that run a blocking flow.  `if not na` treats both `None` and the
empty dict as the termination signal. -/
def mpmLoop (fuel : Nat) (source sink : Nat) :
    Nat → Net → Nat → Res (Net × Nat)
  | 0, _, _ => .fuel
  | n + 1, network, phases => do
    match ← build_level_graph fuel source sink network with
    | none => return (network, phases)
    | some na =>
      if na = [] then return (network, phases)
      else do
        let g ← construct_blocking_flow fuel source sink na []
        let network ← flow_add network g
        mpmLoop fuel source sink n network (phases + 1)

/-- `mpm(source, sink, network)` (lines 394–408) instrumented with the number
of phases that ran a blocking flow. -/
def mpm_count (fuel : Nat) (source sink : Nat) (network : Net) :
    Res (Net × Int × Nat) := do
  let (network, phases) ← mpmLoop fuel source sink fuel network 0
  match dlookup network source with
  | none => Res.err
  | some adj => return (network, adj.foldl (fun acc p => acc + p.2.flow) 0, phases)

/-- `mpm(source, sink, network)`: the final network and the max-flow value,
computed as the sum of flow on the arcs leaving the source. -/
def mpm (fuel : Nat) (source sink : Nat) (network : Net) : Res (Net × Int) := do
  let (network, v, _) ← mpm_count fuel source sink network
  return (network, v)

/-- Only the reported max-flow value of `mpm`. -/
def mpm_value (fuel : Nat) (source sink : Nat) (network : Net) : Res Int := do
  let (_, v) ← mpm fuel source sink network
  return v

/-! ### Observations on networks, for stating the claims -/

/-- The arc record of `network[u][v]`, when present. -/
def arcLookup (net : Net) (u v : Nat) : Option Arc :=
  match dlookup net u with
  | none => none
  | some adj => dlookup adj v

/-- The edge record of `g[u][v]`, when present. -/
def edgeIn (g : Graph) (u v : Nat) : Option REdge :=
  match dlookup g u with
  | none => none
  | some adj => dlookup adj v

/-- The accumulated delta `g[u][v]`, defaulting to 0. -/
def gval (g : DeltaMap) (u v : Nat) : Int :=
  dgetD (dgetD g u []) v 0

/-- Capacity of the forward-direction auxiliary edge `(u, v)`, 0 if absent. -/
def fcap (aux : Graph) (u v : Nat) : Int :=
  match edgeIn aux u v with
  | some e => if e.dir = Dir.F then e.cap else 0
  | none => 0

/-- Capacity of the backward-direction auxiliary edge `(u, v)`, 0 if absent. -/
def bcap (aux : Graph) (u v : Nat) : Int :=
  match edgeIn aux u v with
  | some e => if e.dir = Dir.B then e.cap else 0
  | none => 0

/-- Total flow on arcs entering `n`. -/
def flowIn (net : Net) (n : Nat) : Int :=
  net.foldl
    (fun acc p =>
      acc + p.2.foldl (fun a q => if q.1 = n then a + q.2.flow else a) 0) 0

/-- Total flow on arcs leaving `n`. -/
def flowOut (net : Net) (n : Nat) : Int :=
  (dgetD net n []).foldl (fun a q => a + q.2.flow) 0

/-- Capacity of the cut whose source side is the node list `s`. -/
def cutCap (net : Net) (s : List Nat) : Int :=
  net.foldl
    (fun acc p =>
      if s.contains p.1 then
        acc + p.2.foldl
          (fun a q => if s.contains q.1 then a else a + q.2.cap) 0
      else acc) 0

/-- Capacity of a minimum source–sink cut: the least `cutCap` over all node
subsets containing the source and not the sink. -/
def minCut (net : Net) (source sink : Nat) : Int :=
  let others := (dkeys net).filter (fun n => n ≠ source && n ≠ sink)
  (others.sublists.map (fun l => cutCap net (source :: l))).foldl min
    (cutCap net [source])

/-- Capacity feasibility: `0 ≤ flow ≤ cap` on every arc. -/
def feasible (net : Net) : Prop :=
  ∀ p ∈ net, ∀ q ∈ p.2, 0 ≤ q.2.flow ∧ q.2.flow ≤ q.2.cap

instance (net : Net) : Decidable (feasible net) := by
  unfold feasible; infer_instance

/-- Every flow is zero. -/
def zeroFlows (net : Net) : Prop :=
  ∀ p ∈ net, ∀ q ∈ p.2, q.2.flow = 0

instance (net : Net) : Decidable (zeroFlows net) := by
  unfold zeroFlows; infer_instance

/-- Every arc head has an adjacency entry of its own (the well-formedness
`read_network` guarantees). -/
def netClosed (net : Net) : Prop :=
  ∀ p ∈ net, ∀ q ∈ p.2, dmem net q.1 = true

instance (net : Net) : Decidable (netClosed net) := by
  unfold netClosed; infer_instance

/-- Outer and inner key lists are duplicate-free (true of every Python dict). -/
def netNodup (net : Net) : Prop :=
  (dkeys net).Nodup ∧ ∀ p ∈ net, (dkeys p.2).Nodup

instance (net : Net) : Decidable (netNodup net) := by
  unfold netNodup; infer_instance

/-- Duplicate-free keys for a delta map. -/
def dmNodup (g : DeltaMap) : Prop :=
  (dkeys g).Nodup ∧ ∀ p ∈ g, (dkeys p.2).Nodup

instance (g : DeltaMap) : Decidable (dmNodup g) := by
  unfold dmNodup; infer_instance

/-- Every edge head of the graph is also a key of the graph. -/
def headsClosed (g : Graph) : Prop :=
  ∀ p ∈ g, ∀ q ∈ p.2, dmem g q.1 = true

instance (g : Graph) : Decidable (headsClosed g) := by
  unfold headsClosed; infer_instance

/-- The keys of `d` all occur among the keys of `d'`. -/
def keysSub {α β : Type} (d : Dict α) (d' : Dict β) : Prop :=
  ∀ p ∈ d, dmem d' p.1 = true

instance {α β : Type} (d : Dict α) (d' : Dict β) : Decidable (keysSub d d') := by
  unfold keysSub; infer_instance

/-- Every edge of the graph is forward-direction. -/
def fwdOnly (g : Graph) : Prop :=
  ∀ p ∈ g, ∀ q ∈ p.2, q.2.dir = Dir.F

instance (g : Graph) : Decidable (fwdOnly g) := by
  unfold fwdOnly; infer_instance

/-! ### Reachability by a generic saturated closure -/

/-- One expansion round: add every universe node with a `succ`-predecessor
already in the set. -/
def reachStep (succ : Nat → Nat → Bool) (univ : List Nat) (s : List Nat) :
    List Nat :=
  s ++ univ.filter (fun v => !s.contains v && s.any (fun u => succ u v))

/-- `n` expansion rounds. -/
def reachN (succ : Nat → Nat → Bool) (univ : List Nat) :
    Nat → List Nat → List Nat
  | 0, s => s
  | n + 1, s => reachN succ univ n (reachStep succ univ s)

/-- Successor along an arc of the network. -/
def netSucc (net : Net) (u v : Nat) : Bool := dmem (dgetD net u []) v

/-- Successor along an edge of a residual/auxiliary graph. -/
def graphSucc (g : Graph) (u v : Nat) : Bool := dmem (dgetD g u []) v

/-- There is an arc path from `s` to `t` in the network. -/
def arcReach (net : Net) (s t : Nat) : Bool :=
  (reachN (netSucc net) (dkeys net) (dkeys net).length [s]).contains t

/-- There is an edge path from `s` to `t` in the graph. -/
def graphReach (g : Graph) (s t : Nat) : Bool :=
  (reachN (graphSucc g) (dkeys g) (dkeys g).length [s]).contains t

/-! ### The mirror of `push`, modelled from the spec's words

The spec describes `pull(node y, amount h)` as the "symmetric traversal over
predecessors instead of successors, propagating backward toward source, with
the same saturation/'used'/bookkeeping rules and mirrored sign semantics".
`pull_mirror` is that mirror: it scans the predecessors of the fixed node
being pulled into (ascending, the iteration order of the dict), applies
push's saturation and used rules, mirrors push's bookkeeping (on saturation,
the out-capacity of every current predecessor of the node is decremented,
mirroring push's decrement of every current successor's in-capacity), and
records `+m` on `(u, v)` for a forward edge, `-m` on `(v, u)` for a backward
edge. -/

/-- One predecessor scan of the mirror: the target `v` never changes. -/
def pmInner (v : Nat) :
    List Nat → Graph × Thr × DeltaMap × Dict Int × List Nat →
    Res (Graph × Thr × DeltaMap × Dict Int × List Nat)
  | [], st => .ok st
  | u :: rest, (aux, thr, g, req, que) =>
    match dlookup req v with
    | none => .err
    | some rv =>
      if rv = 0 then .ok (aux, thr, g, req, que)
      else
        match dlookup aux u with
        | none => .err
        | some adj =>
          match dlookup adj v with
          | none => pmInner v rest (aux, thr, g, req, que)
          | some e =>
            if e.used then pmInner v rest (aux, thr, g, req, que)
            else do
              let m := min e.cap rv
              let newcap := e.cap - m
              let aux := setEdge aux u v ⟨newcap, e.dir, e.used⟩
              let (aux, thr) ←
                if newcap = 0 then do
                  let aux := setEdge aux u v ⟨newcap, e.dir, true⟩
                  let preds := (aux.filter (fun p => dmem p.2 v)).map Prod.fst
                  let thr ← preds.foldlM (fun thr nn => thrSubOut thr nn m) thr
                  pure (aux, thr)
                else pure (aux, thr)
              let req := dset req v (rv - m)
              match dlookup req u with
              | none => Res.err
              | some ru => do
                let req := dset req u (ru + m)
                let que := que ++ [u]
                let g :=
                  if e.dir = Dir.B then gAdd g v u (-m) else gAdd g u v m
                pmInner v rest (aux, thr, g, req, que)

/-- Worklist loop of the mirror. -/
def pmLoop : Nat → List Nat → Graph × Thr × DeltaMap × Dict Int →
    Res (Graph × Thr × DeltaMap)
  | 0, _, _ => .fuel
  | _ + 1, [], (aux, thr, g, _) => .ok (aux, thr, g)
  | n + 1, v :: que, (aux, thr, g, req) => do
    let (aux, thr, g, req, que) ←
      pmInner v (dkeys aux) (aux, thr, g, req, que)
    pmLoop n que (aux, thr, g, req)

/-- The mirror of `push`, as the spec describes `pull`. -/
def pull_mirror (fuel : Nat) (_s : Nat) (y : Nat) (h : Int) (aux : Graph)
    (thr : Thr) (g : DeltaMap) : Res (Graph × Thr × DeltaMap) :=
  let req := dset ((aux.map (fun p => (p.1, (0 : Int)))).filter
    (fun p => p.1 ≠ y)) y h
  pmLoop fuel [y] (aux, thr, g, req)

/-- Projection of a push/pull result onto the components that feed the rest
of the phase (the auxiliary graph and the delta map); the throughput table is
recomputed before it is next read. -/
def resAuxG (r : Res (Graph × Thr × DeltaMap)) : Res (Graph × DeltaMap) := do
  let (aux, _, g) ← r
  return (aux, g)

instance : DecidableEq (Graph × DeltaMap) := instDecidableEqProd

instance : DecidableEq (Res (Graph × DeltaMap)) := instDecidableEqRes

instance : DecidableEq (Graph × Dict Int) := instDecidableEqProd

instance : DecidableEq (Res (Option (Graph × Dict Int))) := instDecidableEqRes

instance : DecidableEq (Graph × Thr × DeltaMap) := instDecidableEqProd

instance : DecidableEq (Res (Graph × Thr × DeltaMap)) := instDecidableEqRes

/-! ### The blocking-flow loop with the throughput table kept out of
push/pull, for the recomputation claim -/

/-- `pushInner` without the throughput table. -/
def pushInnerNT (v : Nat) :
    List Nat → Graph × DeltaMap × Dict Int × List Nat →
    Res (Graph × DeltaMap × Dict Int × List Nat)
  | [], st => .ok st
  | n :: rest, (aux, g, req, que) =>
    match dlookup req v with
    | none => .err
    | some rv =>
      if rv = 0 then .ok (aux, g, req, que)
      else
        match dlookup aux v with
        | none => .err
        | some adj =>
          match dlookup adj n with
          | none => .err
          | some e =>
            if e.used then pushInnerNT v rest (aux, g, req, que)
            else
              let m := min e.cap rv
              let newcap := e.cap - m
              let aux := setEdge aux v n ⟨newcap, e.dir, e.used⟩
              let aux :=
                if newcap = 0 then setEdge aux v n ⟨newcap, e.dir, true⟩
                else aux
              let req := dset req v (rv - m)
              match dlookup req n with
              | none => Res.err
              | some rn =>
                let req := dset req n (rn + m)
                let que := que ++ [n]
                let g :=
                  if e.dir = Dir.B then gAdd g n v (-m) else gAdd g v n m
                pushInnerNT v rest (aux, g, req, que)

/-- `pushLoop` without the throughput table. -/
def pushLoopNT : Nat → List Nat → Graph × DeltaMap × Dict Int →
    Res (Graph × DeltaMap)
  | 0, _, _ => .fuel
  | _ + 1, [], (aux, g, _) => .ok (aux, g)
  | n + 1, v :: que, (aux, g, req) =>
    match dlookup aux v with
    | none => .err
    | some adj => do
      let (aux, g, req, que) := ← pushInnerNT v (dkeys adj) (aux, g, req, que)
      pushLoopNT n que (aux, g, req)

/-- `push` without the throughput table. -/
def pushNT (fuel : Nat) (y : Nat) (h : Int) (aux : Graph) (g : DeltaMap) :
    Res (Graph × DeltaMap) :=
  let req := dset ((aux.map (fun p => (p.1, (0 : Int)))).filter
    (fun p => p.1 ≠ y)) y h
  pushLoopNT fuel [y] (aux, g, req)

/-- `pullInner` without the throughput table (the variable swap stays). -/
def pullInnerNT :
    List Nat → Nat × Graph × DeltaMap × Dict Int × List Nat →
    Res (Nat × Graph × DeltaMap × Dict Int × List Nat)
  | [], st => .ok st
  | u :: rest, (v, aux, g, req, que) =>
    match dlookup req v with
    | none => .err
    | some rv =>
      if rv = 0 then .ok (v, aux, g, req, que)
      else
        match dlookup aux u with
        | none => .err
        | some adj =>
          match dlookup adj v with
          | none => pullInnerNT rest (v, aux, g, req, que)
          | some e =>
            if e.used then pullInnerNT rest (v, aux, g, req, que)
            else
              let m := min e.cap rv
              let newcap := e.cap - m
              let aux := setEdge aux u v ⟨newcap, e.dir, e.used⟩
              let aux :=
                if newcap = 0 then setEdge aux u v ⟨newcap, e.dir, true⟩
                else aux
              let req := dset req v (rv - m)
              match dlookup req u with
              | none => Res.err
              | some ru =>
                let req := dset req u (ru + m)
                let que := que ++ [u]
                let g :=
                  if e.dir = Dir.B then gAdd g v u (-m) else gAdd g u v m
                let vNext := if e.dir = Dir.B then u else v
                pullInnerNT rest (vNext, aux, g, req, que)

/-- `pullLoop` without the throughput table. -/
def pullLoopNT : Nat → List Nat → Graph × DeltaMap × Dict Int →
    Res (Graph × DeltaMap)
  | 0, _, _ => .fuel
  | _ + 1, [], (aux, g, _) => .ok (aux, g)
  | n + 1, v :: que, (aux, g, req) => do
    let (_, aux, g, req, que) := ← pullInnerNT (dkeys aux) (v, aux, g, req, que)
    pullLoopNT n que (aux, g, req)

/-- `pull` without the throughput table. -/
def pullNT (fuel : Nat) (y : Nat) (h : Int) (aux : Graph) (g : DeltaMap) :
    Res (Graph × DeltaMap) :=
  let req := dset ((aux.map (fun p => (p.1, (0 : Int)))).filter
    (fun p => p.1 ≠ y)) y h
  pullLoopNT fuel [y] (aux, g, req)

/-- The blocking-flow loop in which push and pull never see the throughput
table: the table is recomputed from scratch from the current auxiliary
network at the start of each iteration, pruned, and used for selection
only. -/
def cbfLoopR (inner : Nat) (source sink : Nat) :
    Nat → Graph → DeltaMap → Res DeltaMap
  | 0, _, _ => .fuel
  | n + 1, aux, g => do
    let thr := calc_throughput source sink aux
    match ← dztLoop source sink inner aux thr with
    | none => return g
    | some (aux, thr) =>
      if ¬ (dmem aux source ∧ dmem aux sink) then return g
      else
        match cbfSelect thr with
        | (none, _) => Res.err
        | (some y, h) => do
          let (aux, g) ← pushNT inner y h aux g
          let (aux, g) ← pullNT inner y h aux g
          cbfLoopR inner source sink n aux g

/-- `construct_blocking_flow` with push/pull blind to the throughput table. -/
def construct_blocking_flow_recomputed (fuel : Nat) (source sink : Nat)
    (aux : Graph) (g : DeltaMap) : Res DeltaMap :=
  cbfLoopR fuel source sink fuel aux g

/-! ### Concrete networks used by the claims -/

/-- Scenario A: arcs (0→1,cap5),(0→2,cap100),(1→4,cap3). -/
def netA : Net :=
  [(0, [(1, ⟨5, 0⟩), (2, ⟨100, 0⟩)]), (1, [(4, ⟨3, 0⟩)]), (2, []), (4, [])]

/-- Scenario B: arcs (0→1,cap10),(0→2,cap10),(1→3,cap10),(2→3,cap10). -/
def netB : Net :=
  [(0, [(1, ⟨10, 0⟩), (2, ⟨10, 0⟩)]), (1, [(3, ⟨10, 0⟩)]),
   (2, [(3, ⟨10, 0⟩)]), (3, [])]

/-- Scenario C: the chain (0→1,cap5),(1→2,cap2),(2→3,cap5). -/
def netC : Net :=
  [(0, [(1, ⟨5, 0⟩)]), (1, [(2, ⟨2, 0⟩)]), (2, [(3, ⟨5, 0⟩)]), (3, [])]

/-- Two isolated nodes: no path from source 0 to sink 1, and the source has
no outgoing arc. -/
def netD0 : Net := [(0, []), (1, [])]

/-- A network on which the driver's result violates flow conservation:
0→1→2 is the trunk into sink 2, and 2→3→4→2 is a circulation behind the
sink. -/
def netCons : Net :=
  [(0, [(1, ⟨10, 0⟩)]), (1, [(2, ⟨10, 0⟩)]), (2, [(3, ⟨2, 0⟩)]),
   (3, [(4, ⟨1, 0⟩)]), (4, [(2, ⟨5, 0⟩)])]

/-- `netCons` extended with a spare path 0→5→6→3 that keeps the
non-conserving node 3 residually reachable at termination. -/
def netCut : Net :=
  [(0, [(1, ⟨10, 0⟩), (5, ⟨5, 0⟩)]), (1, [(2, ⟨10, 0⟩)]), (2, [(3, ⟨2, 0⟩)]),
   (3, [(4, ⟨1, 0⟩)]), (4, [(2, ⟨5, 0⟩)]), (5, [(6, ⟨2, 0⟩)]),
   (6, [(3, ⟨3, 0⟩)])]

/-- An 8-node network on which the driver runs 8 blocking-flow phases. -/
def netPhases : Net :=
  [(0, [(1, ⟨5, 0⟩), (5, ⟨5, 0⟩)]),
   (1, [(3, ⟨1, 0⟩), (4, ⟨1, 0⟩), (6, ⟨1, 0⟩), (7, ⟨1, 0⟩)]),
   (2, []),
   (3, [(4, ⟨2, 0⟩)]),
   (4, [(2, ⟨50, 0⟩)]),
   (5, [(3, ⟨1, 0⟩), (4, ⟨1, 0⟩), (6, ⟨1, 0⟩), (7, ⟨1, 0⟩)]),
   (6, [(7, ⟨2, 0⟩)]),
   (7, [(4, ⟨5, 0⟩)])]

/-- A network whose auxiliary network contains the cycle 2⇄3 through the
sink 2 (arc 3→2 carries flow 2 of capacity 5, arc 0→3 has capacity 0). -/
def netCyc : Net :=
  [(0, [(2, ⟨5, 0⟩), (3, ⟨0, 0⟩)]), (2, []), (3, [(2, ⟨5, 2⟩)])]

/-- An auxiliary network on which `pull` deviates from the mirror of `push`:
node 2 has the predecessors 0 (forward), 1 (backward) and 3 (forward). -/
def auxPull : Graph :=
  [(0, [(2, ⟨5, Dir.F, false⟩)]), (1, [(2, ⟨2, Dir.B, false⟩)]), (2, []),
   (3, [(2, ⟨9, Dir.F, false⟩)])]

/-- A throughput table covering `auxPull`'s nodes. -/
def thrPull : Thr := [(0, (0, 5)), (1, (0, 2)), (2, (16, 0)), (3, (0, 9))]

/-- The auxiliary network `build_level_graph` produces for `netCyc`. -/
def auxCyc : Graph :=
  [(0, [(2, ⟨5, Dir.F, false⟩)]), (2, [(3, ⟨2, Dir.B, false⟩)]),
   (3, [(2, ⟨3, Dir.F, false⟩)])]

/-- `2^62 + 50`: a capacity large enough that pruning two such sink-out
edges drives the sink's `sys.maxint` out-capacity sentinel below zero. -/
def bigCap : Int := 4611686018427387954

/-- A feasible zero-flow network (source 0, sink 5) on which the sentinel
wrap-around makes `pull` record a negative delta on the arc `(2, 5)` that no
later push compensates: the huge arcs 5→4 and 5→9 lead to dead ends, the
path 0→6→7→8→10→5 inflates the sink's layer so those dead ends survive
truncation, and the arcs 2→3→5 absorb the source's remaining capacity away
from the victim arc 2→5. -/
def netNeg : Net :=
  [(0, [(2, ⟨1, 0⟩), (6, ⟨1, 0⟩)]),
   (2, [(3, ⟨1000, 0⟩), (5, ⟨7, 0⟩)]),
   (3, [(5, ⟨200, 0⟩)]),
   (4, []),
   (5, [(4, ⟨bigCap, 0⟩), (9, ⟨bigCap, 0⟩)]),
   (6, [(7, ⟨1, 0⟩)]),
   (7, [(8, ⟨1, 0⟩)]),
   (8, [(10, ⟨1, 0⟩)]),
   (9, []),
   (10, [(5, ⟨1, 0⟩)])]

/-- The network `mpm 40 0 5 netNeg` returns: arc `(2, 5)` ends with the
flow `-101`, violating `0 ≤ flow`. -/
def netNegOut : Net :=
  [(0, [(2, ⟨1, 1⟩), (6, ⟨1, 1⟩)]),
   (2, [(3, ⟨1000, 102⟩), (5, ⟨7, -101⟩)]),
   (3, [(5, ⟨200, 102⟩)]),
   (4, []),
   (5, [(4, ⟨bigCap, 0⟩), (9, ⟨bigCap, 0⟩)]),
   (6, [(7, ⟨1, 1⟩)]),
   (7, [(8, ⟨1, 1⟩)]),
   (8, [(10, ⟨1, 1⟩)]),
   (9, []),
   (10, [(5, ⟨1, 1⟩)])]

/-- The auxiliary network `build_level_graph` produces for scenario A
(source 0, sink 4). -/
def auxA9 : Graph :=
  [(0, [(1, ⟨5, Dir.F, false⟩), (2, ⟨100, Dir.F, false⟩)]),
   (1, [(4, ⟨3, Dir.F, false⟩)]), (2, []), (4, [])]

/-- The delta map the blocking-flow phase on `auxA9` produces. -/
def gA9 : DeltaMap := [(0, [(1, 3)]), (1, [(4, 3)])]

/-- A network whose sink 2 is unreachable from the source 0, while the
source still has an outgoing arc (so `build_auxiliary` does not crash). -/
def netNoPath : Net := [(0, [(1, ⟨5, 0⟩)]), (1, []), (2, [])]

/-- A forward-only auxiliary network: predecessors 0 and 1 of the node 2. -/
def auxFwd : Graph :=
  [(0, [(2, ⟨5, Dir.F, false⟩)]), (1, [(2, ⟨2, Dir.F, false⟩)]), (2, [])]

/-- A throughput table covering `auxFwd`'s nodes. -/
def thrFwd : Thr := [(0, (0, 5)), (1, (0, 2)), (2, (7, 0))]

/-- The auxiliary graph `pull 20 0 2 6` leaves behind on `auxFwd`. -/
def auxFwdOut : Graph :=
  [(0, [(2, ⟨0, Dir.F, true⟩)]), (1, [(2, ⟨1, Dir.F, false⟩)]), (2, [])]

/-- The delta map that pull records on `auxFwd`. -/
def gFwd : DeltaMap := [(0, [(2, 5)]), (1, [(2, 1)])]

/-! ### Invariants of a blocking-flow phase -/

/-- Ascending (hence duplicate-free) key list, as every dict the program
builds has. -/
def dsorted {α : Type} (d : Dict α) : Prop :=
  d.Pairwise (fun p q => p.1 < q.1)

instance {α : Type} (d : Dict α) : Decidable (dsorted d) := by
  unfold dsorted; infer_instance

/-- Ascending keys at both levels of a dict of dicts. -/
def dsorted2 {α : Type} (d : Dict (Dict α)) : Prop :=
  dsorted d ∧ ∀ p ∈ d, dsorted p.2

instance {α : Type} (d : Dict (Dict α)) : Decidable (dsorted2 d) := by
  unfold dsorted2; infer_instance

/-- Every auxiliary edge has non-negative capacity and stems from an arc of
the network: a forward edge `(u, v)` from the arc `(u, v)`, a backward edge
`(u, v)` from the arc `(v, u)`. -/
def auxEdgesOK (net : Net) (aux : Graph) : Prop :=
  ∀ u v e, edgeIn aux u v = some e →
    0 ≤ e.cap ∧ (e.dir = Dir.F → (arcLookup net u v).isSome = true) ∧
      (e.dir = Dir.B → (arcLookup net v u).isSome = true)

/-- Every key pair recorded in the delta map is an arc of the network. -/
def gdomOK (net : Net) (g : DeltaMap) : Prop :=
  ∀ p ∈ g, ∀ q ∈ p.2, (arcLookup net p.1 q.1).isSome = true

/-- Per-arc bounds: the accumulated delta plus the live forward capacity
never exceeds the arc's remaining capacity, and the live backward capacity
minus the delta never exceeds the arc's cancellable flow. -/
def gBounds (net : Net) (aux : Graph) (g : DeltaMap) : Prop :=
  ∀ u v a, arcLookup net u v = some a →
    gval g u v + fcap aux u v ≤ a.cap - a.flow ∧
    bcap aux v u - gval g u v ≤ a.flow

/-- The invariant a blocking-flow phase maintains on the auxiliary network
and the delta map, relative to the phase's base network: every auxiliary
edge and every delta-map key pair stems from an arc of the network, and the
delta map keeps sorted keys. -/
def INV (net : Net) (aux : Graph) (g : DeltaMap) : Prop :=
  auxEdgesOK net aux ∧ gdomOK net g ∧ dsorted2 g

/-- All requirements are non-negative. -/
def reqOK (req : Dict Int) : Prop := ∀ p ∈ req, 0 ≤ p.2

/-- Every edge of the residual graph carries its exact residual quantity:
forward `(u, v)` the arc's `cap - flow`, backward `(u, v)` the reversed
arc's `flow`, both positive, and no `used` mark. -/
def residOK (net : Net) (g : Graph) : Prop :=
  ∀ u v e, edgeIn g u v = some e →
    e.used = false ∧ 0 < e.cap ∧
      (e.dir = Dir.F → ∃ a, arcLookup net u v = some a ∧ e.cap = a.cap - a.flow) ∧
      (e.dir = Dir.B → ∃ a, arcLookup net v u = some a ∧ e.cap = a.flow)

/-- The layering invariant of the auxiliary builder: every edge between two
non-sink nodes joins consecutive recorded levels. -/
def layerInv (sink : Nat) (na : Graph) (vl : Dict Int) : Prop :=
  ∀ u v, u ≠ sink → v ≠ sink → (edgeIn na u v).isSome = true →
    ∃ lu, dlookup vl u = some lu ∧ dlookup vl v = some (lu + 1)

/-- Every node of the auxiliary graph has a recorded level. -/
def nodesInVl (na : Graph) (vl : Dict Int) : Prop :=
  ∀ u, dmem na u = true → dmem vl u = true

/-- `l` is the list of intermediate nodes of an arc path from `s` to `t`. -/
def isArcPath (net : Net) (s t : Nat) : List Nat → Prop
  | [] => s = t
  | v :: rest => netSucc net s v = true ∧ isArcPath net v t rest

/-- In- and out-flow at node `n` of the network `mpm` returns, with the
reported value. -/
def mpm_inout (fuel source sink n : Nat) (net : Net) : Res (Int × Int × Int) := do
  let (net', v) ← mpm fuel source sink net
  return (flowIn net' n, flowOut net' n, v)

/-- The number of blocking-flow phases an `mpm` run performs. -/
def mpm_phases (fuel source sink : Nat) (net : Net) : Res Nat := do
  let (_, _, ph) ← mpm_count fuel source sink net
  return ph

end MPM

namespace MPM

/-! ## Concrete claim theorems -/

/-- C2: `mpm` returns the stated max-flow values on the three concrete
scenarios: 3 on scenario A (source 0, sink 4), 20 on scenario B (source 0,
sink 3), and 2 on the chain scenario C (source 0, sink 3). -/
theorem mpm_scenario_values :
    mpm_value 30 0 4 netA = .ok 3 ∧ mpm_value 30 0 3 netB = .ok 20 ∧
    mpm_value 30 0 3 netC = .ok 2 := by
  refine ⟨by decide, by decide, by decide⟩

/-- C1: on the zero-flow, per-arc-feasible network `netCut` with source 0 and
sink 2, `mpm` reports the value 12 while the minimum s–t cut capacity is 11:
the reported value is not the capacity of a minimum cut (the underlying flow
is not even conserved), refuting the claim's min-cut conjunct on a valid
input. -/
theorem mpm_value_exceeds_min_cut :
    mpm_value 60 0 2 netCut = .ok 12 ∧ minCut netCut 0 2 = 11 ∧
    feasible netCut ∧ zeroFlows netCut := by
  refine ⟨by decide, by decide, by decide, by decide⟩

/-- C3: on the feasible zero-flow network `netNeg` with source 0 and sink 5,
`mpm` returns a network in which the arc `(2, 5)` carries the flow `-101`,
violating `0 ≤ flow ≤ capacity`: pruning the two huge sink-out arcs drags the
sink's `sys.maxint` out-capacity sentinel below zero, the sink is selected
with that negative throughput, `pull` records a negative delta on `(2, 5)`,
and the phase ends (source throughput exhausted along 2→3→5) before any push
drains the corrupted edge, so `flow_add` merges the negative delta into the
network. -/
theorem mpm_merges_negative_flow :
    feasible netNeg ∧ zeroFlows netNeg ∧
    mpm 40 0 5 netNeg = .ok (netNegOut, 2) ∧
    arcLookup netNegOut 2 5 = some ⟨7, -101⟩ ∧ ¬ feasible netNegOut := by
  refine ⟨by decide, by decide, by decide, by decide, by decide⟩

/-- C4: on the zero-flow network `netCons` with source 0 and sink 2, the
network `mpm` returns has inflow 2 but outflow 1 at node 3, a node that is
neither the source nor the sink: flow conservation fails. -/
theorem mpm_violates_conservation :
    mpm_inout 60 0 2 3 netCons = .ok (2, 1, 10) ∧ feasible netCons ∧
    zeroFlows netCons := by
  refine ⟨by decide, by decide, by decide⟩

/-- C6: on the 8-node zero-flow network `netPhases` with source 0 and sink 2,
`mpm` terminates only after running 8 blocking-flow phases, exceeding the
claimed bound of node count − 1 = 7. -/
theorem mpm_exceeds_phase_bound :
    mpm_phases 120 0 2 netPhases = .ok 8 ∧ (dkeys netPhases).length = 8 ∧
    feasible netPhases ∧ zeroFlows netPhases := by
  refine ⟨by decide, by decide, by decide, by decide⟩

/-- C5, counterexample: on the network `netD0` (two isolated nodes, no path
from source 0 to sink 1, all flows 0), `mpm` raises `KeyError` instead of
returning the value 0: `build_auxiliary` evaluates `network[source]` on a
residual graph that has no entry for a source without outgoing arcs. -/
theorem mpm_crashes_on_isolated_source :
    mpm 30 0 1 netD0 = .err ∧ arcReach netD0 0 1 = false ∧
    zeroFlows netD0 := by
  refine ⟨by decide, by decide, by decide⟩

/-- C7, counterexample: on `netCyc` (source 0, sink 2) the auxiliary network
contains both the edge 2→3 and the edge 3→2 — a cycle through the sink — so
it is not a DAG, and its edges cannot all go from a layer `k` to a layer
`k+1`. -/
theorem build_auxiliary_not_dag :
    build_level_graph 30 0 2 netCyc = .ok (some auxCyc) ∧
    (edgeIn auxCyc 2 3).isSome = true ∧ (edgeIn auxCyc 3 2).isSome = true ∧
    feasible netCyc := by
  refine ⟨by decide, by decide, by decide, by decide⟩

/-- C8, counterexample: on the auxiliary network `auxPull`, `pull` into node
2 is not the mirror of `push`: after traversing the backward-direction edge
(1, 2), the remaining predecessor scan abandons node 2 (the source's
`u, v = v, u` overwrites the scan's target), so the forward edge (3, 2) is
never used — the mirror and `pull` return different auxiliary capacities and
different delta maps. -/
theorem pull_differs_from_push_mirror :
    resAuxG (pull 50 0 2 10 auxPull thrPull []) ≠
    resAuxG (pull_mirror 50 0 2 10 auxPull thrPull []) := by
  decide

/-! ## Dictionary lemmas -/

theorem dlookup_cons {α : Type} (k₁ : Nat) (v₁ : α) (rest : Dict α) (k : Nat) :
    dlookup ((k₁, v₁) :: rest) k = if k = k₁ then some v₁ else dlookup rest k :=
  rfl

theorem dlookup_dset {α : Type} (d : Dict α) (k : Nat) (v : α) (k' : Nat) :
    dlookup (dset d k v) k' = if k' = k then some v else dlookup d k' := by
  induction d with
  | nil => rfl
  | cons p rest ih =>
    obtain ⟨k₁, v₁⟩ := p
    by_cases h1 : k < k₁
    · rw [show dset ((k₁, v₁) :: rest) k v = (k, v) :: (k₁, v₁) :: rest from
        by simp [dset, h1]]
      rw [dlookup_cons]
    · by_cases h2 : k = k₁
      · subst h2
        rw [show dset ((k, v₁) :: rest) k v = (k, v) :: rest from
          by simp [dset, h1]]
        rw [dlookup_cons, dlookup_cons]
        by_cases h3 : k' = k <;> simp [h3]
      · rw [show dset ((k₁, v₁) :: rest) k v = (k₁, v₁) :: dset rest k v from
          by simp [dset, h1, h2]]
        rw [dlookup_cons, dlookup_cons, ih]
        by_cases h3 : k' = k₁
        · subst h3
          have hne : ¬ k' = k := fun hh => h2 hh.symm
          simp [hne]
        · simp [h3]

theorem dlookup_derase {α : Type} (d : Dict α) (k k' : Nat) :
    dlookup (derase d k) k' = if k' = k then none else dlookup d k' := by
  induction d with
  | nil => simp [derase, dlookup]
  | cons p rest ih =>
    obtain ⟨k₁, v₁⟩ := p
    by_cases h1 : k₁ = k
    · subst h1
      have : derase ((k₁, v₁) :: rest) k₁ = derase rest k₁ := by
        simp [derase, List.filter]
      rw [this, ih]
      by_cases h2 : k' = k₁
      · simp [h2]
      · simp [h2, dlookup_cons]
    · have hb : (k₁ != k) = true := by simpa using h1
      have : derase ((k₁, v₁) :: rest) k = (k₁, v₁) :: derase rest k := by
        simp [derase, List.filter, hb]
      rw [this, dlookup_cons, dlookup_cons, ih]
      by_cases h2 : k' = k₁
      · subst h2
        have hne : ¬ k' = k := h1
        simp [hne]
      · simp [h2]

theorem mem_dset {α : Type} {d : Dict α} {k : Nat} {v : α} {p : Nat × α} :
    p ∈ dset d k v → p = (k, v) ∨ p ∈ d := by
  induction d with
  | nil => intro h; simpa [dset] using h
  | cons q rest ih =>
    intro h
    obtain ⟨k₁, v₁⟩ := q
    by_cases h1 : k < k₁
    · simp only [dset, if_pos h1, List.mem_cons] at h
      rcases h with h | h | h
      · exact Or.inl h
      · exact Or.inr (by simp [h])
      · exact Or.inr (List.mem_cons_of_mem _ h)
    · by_cases h2 : k = k₁
      · subst h2
        simp only [dset, if_neg h1, eq_self_iff_true, if_true,
          List.mem_cons] at h
        rcases h with h | h
        · exact Or.inl h
        · exact Or.inr (List.mem_cons_of_mem _ h)
      · simp only [dset, if_neg h1, if_neg h2, List.mem_cons] at h
        rcases h with h | h
        · exact Or.inr (by simp [h])
        · rcases ih h with h' | h'
          · exact Or.inl h'
          · exact Or.inr (List.mem_cons_of_mem _ h')

theorem mem_derase {α : Type} {d : Dict α} {k : Nat} {p : Nat × α}
    (h : p ∈ derase d k) : p ∈ d :=
  List.mem_of_mem_filter h

theorem dlookup_mem {α : Type} {d : Dict α} {k : Nat} {v : α}
    (h : dlookup d k = some v) : (k, v) ∈ d := by
  induction d with
  | nil => simp [dlookup] at h
  | cons p rest ih =>
    obtain ⟨k₁, v₁⟩ := p
    by_cases h1 : k = k₁
    · subst h1
      rw [dlookup_cons, if_pos rfl] at h
      have : v₁ = v := by injection h
      subst this
      exact List.mem_cons_self _ _
    · rw [dlookup_cons, if_neg h1] at h
      exact List.mem_cons_of_mem _ (ih h)

theorem dmem_dset {α : Type} (d : Dict α) (k : Nat) (v : α) (k' : Nat) :
    dmem (dset d k v) k' = (k' = k ∨ dmem d k' = true : Prop) := by
  simp only [dmem, dlookup_dset]
  by_cases h : k' = k <;> simp [h]

theorem dgetD_dset_self {α : Type} (d : Dict α) (k : Nat) (v dflt : α) :
    dgetD (dset d k v) k dflt = v := by
  simp [dgetD, dlookup_dset]

theorem dgetD_dset_other {α : Type} (d : Dict α) (k : Nat) (v dflt : α)
    (k' : Nat) (h : k' ≠ k) : dgetD (dset d k v) k' dflt = dgetD d k' dflt := by
  simp [dgetD, dlookup_dset, h]

/-! ## Lemmas on edge and delta updates -/

theorem edgeIn_eq_dlookup (g : Graph) (u v : Nat) :
    edgeIn g u v = dlookup (dgetD g u []) v := by
  unfold edgeIn dgetD
  cases dlookup g u <;> simp [dlookup]

theorem edgeIn_setEdge (g : Graph) (u v : Nat) (e : REdge) (u' v' : Nat) :
    edgeIn (setEdge g u v e) u' v' =
      if u' = u ∧ v' = v then some e else edgeIn g u' v' := by
  unfold setEdge
  rw [edgeIn_eq_dlookup, edgeIn_eq_dlookup]
  by_cases hu : u' = u
  · subst hu
    rw [dgetD_dset_self, dlookup_dset]
    by_cases hv : v' = v
    · simp [hv]
    · simp [hv]
  · rw [dgetD_dset_other _ _ _ _ _ hu]
    simp [hu]

theorem gval_gAdd (g : DeltaMap) (a b : Nat) (m : Int) (u v : Nat) :
    gval (gAdd g a b m) u v =
      gval g u v + if u = a ∧ v = b then m else 0 := by
  unfold gval gAdd
  by_cases hu : u = a
  · subst hu
    rw [dgetD_dset_self]
    rw [show dgetD (dset (dgetD g u []) b (dgetD (dgetD g u []) b 0 + m)) v 0 =
      if v = b then dgetD (dgetD g u []) b 0 + m else dgetD (dgetD g u []) v 0 from ?_]
    · by_cases hv : v = b
      · simp [hv]
      · simp [hv]
    · unfold dgetD
      rw [dlookup_dset]
      by_cases hv : v = b <;> simp [hv]
  · rw [dgetD_dset_other _ _ _ _ _ hu]
    simp [hu]

theorem mem_gAdd {g : DeltaMap} {a b : Nat} {m : Int} {p : Nat × Dict Int}
    (h : p ∈ gAdd g a b m) :
    (p.1 = a ∧ ∀ q ∈ p.2, q.1 = b ∨ (∃ adj, dlookup g a = some adj ∧ q ∈ adj))
      ∨ p ∈ g := by
  unfold gAdd at h
  rcases mem_dset h with h' | h'
  · refine Or.inl ⟨by rw [h'], ?_⟩
    intro q hq
    rw [h'] at hq
    simp only at hq
    rcases mem_dset hq with h'' | h''
    · exact Or.inl (by rw [h''])
    · unfold dgetD at h''
      cases hg : dlookup g a with
      | none => rw [hg] at h''; simp at h''
      | some adj => rw [hg] at h''; exact Or.inr ⟨adj, rfl, h''⟩
  · exact Or.inr h'

/-! ## Res monad lemmas -/

theorem res_bind_ok {α β : Type} (a : α) (f : α → Res β) :
    (Res.ok a >>= f) = f a := rfl

theorem res_bind_err {α β : Type} (f : α → Res β) :
    (Res.err >>= f : Res β) = .err := rfl

theorem res_bind_fuel {α β : Type} (f : α → Res β) :
    (Res.fuel >>= f : Res β) = .fuel := rfl

theorem res_ok_of_bind_ok {α β : Type} {x : Res α} {f : α → Res β} {b : β}
    (h : (x >>= f) = .ok b) : ∃ a, x = .ok a ∧ f a = .ok b := by
  cases x with
  | ok a => exact ⟨a, rfl, h⟩
  | err => simp [res_bind_err] at h
  | fuel => simp [res_bind_fuel] at h

theorem res_pure_bind {α β : Type} (a : α) (f : α → Res β) :
    ((pure a : Res α) >>= f) = f a := rfl

/-! ## C10 machinery: push/pull agree with their table-blind versions -/

theorem pushInner_ok {v : Nat} :
    ∀ (ns : List Nat) (aux : Graph) (thr : Thr) (g : DeltaMap)
      (req : Dict Int) (que : List Nat) (a : Graph) (t : Thr) (g' : DeltaMap)
      (req' : Dict Int) (que' : List Nat),
      pushInner v ns (aux, thr, g, req, que) = .ok (a, t, g', req', que') →
      pushInnerNT v ns (aux, g, req, que) = .ok (a, g', req', que') := by
  intro ns
  induction ns with
  | nil =>
    intro aux thr g req que a t g' req' que' h
    simp only [pushInner] at h
    injection h with h2
    injection h2 with ha h2
    injection h2 with _ h2
    injection h2 with hg h2
    injection h2 with hr hq
    subst ha; subst hg; subst hr; subst hq
    rfl
  | cons n rest ih =>
    intro aux thr g req que a t g' req' que' h
    simp only [pushInner] at h
    simp only [pushInnerNT]
    cases hrv : dlookup req v with
    | none => simp only [hrv] at h; exact Res.noConfusion h
    | some rv =>
      simp only [hrv] at h ⊢
      by_cases hz : rv = 0
      · simp only [hz, if_pos rfl] at h ⊢
        injection h with h2
        injection h2 with ha h2
        injection h2 with _ h2
        injection h2 with hg h2
        injection h2 with hr hq
        subst ha; subst hg; subst hr; subst hq
        rfl
      · simp only [if_neg hz] at h ⊢
        cases hav : dlookup aux v with
        | none => simp only [hav] at h; exact Res.noConfusion h
        | some adj =>
          simp only [hav] at h ⊢
          cases han : dlookup adj n with
          | none => simp only [han] at h; exact Res.noConfusion h
          | some e =>
            simp only [han] at h ⊢
            by_cases hu : e.used
            · simp only [if_pos hu] at h ⊢
              exact ih _ _ _ _ _ _ _ _ _ _ h
            · simp only [if_neg hu] at h ⊢
              by_cases hnc : e.cap - min e.cap rv = 0
              · rw [if_pos hnc] at h
                rw [if_pos hnc]
                obtain ⟨t3, _, h2⟩ := res_ok_of_bind_ok h
                rw [res_pure_bind] at h2
                simp only at h2
                cases hreqn : dlookup (dset req v (rv - min e.cap rv)) n with
                | none => simp only [hreqn] at h2; exact Res.noConfusion h2
                | some rn =>
                  simp only [hreqn] at h2 ⊢
                  exact ih _ _ _ _ _ _ _ _ _ _ h2
              · rw [if_neg hnc] at h
                rw [if_neg hnc]
                rw [res_pure_bind] at h
                simp only at h
                cases hreqn : dlookup (dset req v (rv - min e.cap rv)) n with
                | none => simp only [hreqn] at h; exact Res.noConfusion h
                | some rn =>
                  simp only [hreqn] at h ⊢
                  exact ih _ _ _ _ _ _ _ _ _ _ h

theorem pushLoop_ok :
    ∀ (fuel : Nat) (que : List Nat) (aux : Graph) (thr : Thr) (g : DeltaMap)
      (req : Dict Int) (a : Graph) (t : Thr) (g' : DeltaMap),
      pushLoop fuel que (aux, thr, g, req) = .ok (a, t, g') →
      pushLoopNT fuel que (aux, g, req) = .ok (a, g') := by
  intro fuel
  induction fuel with
  | zero =>
    intro que aux thr g req a t g' h
    exact Res.noConfusion h
  | succ n ih =>
    intro que aux thr g req a t g' h
    cases que with
    | nil =>
      simp only [pushLoop] at h
      injection h with h2
      injection h2 with ha h2
      injection h2 with _ hg
      subst ha; subst hg
      rfl
    | cons v rest =>
      simp only [pushLoop] at h
      simp only [pushLoopNT]
      cases hav : dlookup aux v with
      | none => simp only [hav] at h; exact Res.noConfusion h
      | some adj =>
        simp only [hav] at h ⊢
        obtain ⟨⟨a1, t1, g1, r1, q1⟩, hin, h2⟩ := res_ok_of_bind_ok h
        rw [pushInner_ok _ _ _ _ _ _ _ _ _ _ _ hin, res_bind_ok]
        simp only at h2
        exact ih _ _ _ _ _ _ _ _ h2

theorem push_ok {fuel y : Nat} {h : Int} {aux : Graph} {thr : Thr}
    {g : DeltaMap} {a : Graph} {t : Thr} {g' : DeltaMap}
    (hp : push fuel y h aux thr g = .ok (a, t, g')) :
    pushNT fuel y h aux g = .ok (a, g') :=
  pushLoop_ok _ _ _ _ _ _ _ _ _ hp

theorem pullInner_ok :
    ∀ (us : List Nat) (v : Nat) (aux : Graph) (thr : Thr) (g : DeltaMap)
      (req : Dict Int) (que : List Nat) (v2 : Nat) (a : Graph) (t : Thr)
      (g' : DeltaMap) (req' : Dict Int) (que' : List Nat),
      pullInner us (v, aux, thr, g, req, que) = .ok (v2, a, t, g', req', que') →
      pullInnerNT us (v, aux, g, req, que) = .ok (v2, a, g', req', que') := by
  intro us
  induction us with
  | nil =>
    intro v aux thr g req que v2 a t g' req' que' h
    simp only [pullInner] at h
    injection h with h2
    injection h2 with hv h2
    injection h2 with ha h2
    injection h2 with _ h2
    injection h2 with hg h2
    injection h2 with hr hq
    subst hv; subst ha; subst hg; subst hr; subst hq
    rfl
  | cons u rest ih =>
    intro v aux thr g req que v2 a t g' req' que' h
    simp only [pullInner] at h
    simp only [pullInnerNT]
    cases hrv : dlookup req v with
    | none => simp only [hrv] at h; exact Res.noConfusion h
    | some rv =>
      simp only [hrv] at h ⊢
      by_cases hz : rv = 0
      · simp only [hz, if_pos rfl] at h ⊢
        injection h with h2
        injection h2 with hv h2
        injection h2 with ha h2
        injection h2 with _ h2
        injection h2 with hg h2
        injection h2 with hr hq
        subst hv; subst ha; subst hg; subst hr; subst hq
        rfl
      · simp only [if_neg hz] at h ⊢
        cases hau : dlookup aux u with
        | none => simp only [hau] at h; exact Res.noConfusion h
        | some adj =>
          simp only [hau] at h ⊢
          cases hav : dlookup adj v with
          | none =>
            simp only [hav] at h ⊢
            exact ih _ _ _ _ _ _ _ _ _ _ _ _ h
          | some e =>
            simp only [hav] at h ⊢
            by_cases hu : e.used
            · simp only [if_pos hu] at h ⊢
              exact ih _ _ _ _ _ _ _ _ _ _ _ _ h
            · simp only [if_neg hu] at h ⊢
              by_cases hnc : e.cap - min e.cap rv = 0
              · rw [if_pos hnc] at h
                rw [if_pos hnc]
                obtain ⟨t3, _, h2⟩ := res_ok_of_bind_ok h
                obtain ⟨t4, _, h3⟩ := res_ok_of_bind_ok h2
                rw [res_pure_bind] at h3
                simp only at h3
                cases hreqn : dlookup (dset req v (rv - min e.cap rv)) u with
                | none => simp only [hreqn] at h3; exact Res.noConfusion h3
                | some ru =>
                  simp only [hreqn] at h3 ⊢
                  exact ih _ _ _ _ _ _ _ _ _ _ _ _ h3
              · rw [if_neg hnc] at h
                rw [if_neg hnc]
                rw [res_pure_bind] at h
                simp only at h
                cases hreqn : dlookup (dset req v (rv - min e.cap rv)) u with
                | none => simp only [hreqn] at h; exact Res.noConfusion h
                | some ru =>
                  simp only [hreqn] at h ⊢
                  exact ih _ _ _ _ _ _ _ _ _ _ _ _ h

theorem pullLoop_ok :
    ∀ (fuel : Nat) (que : List Nat) (aux : Graph) (thr : Thr) (g : DeltaMap)
      (req : Dict Int) (a : Graph) (t : Thr) (g' : DeltaMap),
      pullLoop fuel que (aux, thr, g, req) = .ok (a, t, g') →
      pullLoopNT fuel que (aux, g, req) = .ok (a, g') := by
  intro fuel
  induction fuel with
  | zero =>
    intro que aux thr g req a t g' h
    exact Res.noConfusion h
  | succ n ih =>
    intro que aux thr g req a t g' h
    cases que with
    | nil =>
      simp only [pullLoop] at h
      injection h with h2
      injection h2 with ha h2
      injection h2 with _ hg
      subst ha; subst hg
      rfl
    | cons v rest =>
      simp only [pullLoop] at h
      simp only [pullLoopNT]
      obtain ⟨⟨v1, a1, t1, g1, r1, q1⟩, hin, h2⟩ := res_ok_of_bind_ok h
      rw [pullInner_ok _ _ _ _ _ _ _ _ _ _ _ _ _ hin, res_bind_ok]
      simp only at h2
      exact ih _ _ _ _ _ _ _ _ h2

theorem pull_ok {fuel s y : Nat} {h : Int} {aux : Graph} {thr : Thr}
    {g : DeltaMap} {a : Graph} {t : Thr} {g' : DeltaMap}
    (hp : pull fuel s y h aux thr g = .ok (a, t, g')) :
    pullNT fuel y h aux g = .ok (a, g') :=
  pullLoop_ok _ _ _ _ _ _ _ _ _ hp

theorem cbfLoop_ok :
    ∀ (n inner source sink : Nat) (aux : Graph) (g gout : DeltaMap),
      cbfLoop inner source sink n aux g = .ok gout →
      cbfLoopR inner source sink n aux g = .ok gout := by
  intro n
  induction n with
  | zero =>
    intro inner source sink aux g gout h
    exact Res.noConfusion h
  | succ n ih =>
    intro inner source sink aux g gout h
    simp only [cbfLoop] at h
    simp only [cbfLoopR]
    obtain ⟨odz, hdz, h2⟩ := res_ok_of_bind_ok h
    rw [hdz, res_bind_ok]
    cases odz with
    | none => exact h2
    | some pr =>
      obtain ⟨aux', thr'⟩ := pr
      simp only at h2 ⊢
      by_cases hmem : dmem aux' source = true ∧ dmem aux' sink = true
      · rw [if_neg (by simpa using hmem)] at h2
        rw [if_neg (by simpa using hmem)]
        cases hsel : cbfSelect thr' with
        | mk oy hv =>
          rw [hsel] at h2
          cases oy with
          | none => exact Res.noConfusion h2
          | some y =>
            simp only at h2 ⊢
            obtain ⟨⟨a1, t1, g1⟩, hpush, h3⟩ := res_ok_of_bind_ok h2
            rw [push_ok hpush, res_bind_ok]
            simp only at h3
            obtain ⟨⟨a2, t2, g2⟩, hpull, h4⟩ := res_ok_of_bind_ok h3
            rw [pull_ok hpull, res_bind_ok]
            simp only at h4
            exact ih _ _ _ _ _ _ h4
      · rw [if_pos (by simpa using hmem)] at h2
        rw [if_pos (by simpa using hmem)]
        exact h2

/-- C10: the blocking-flow loop recomputes the throughput table from scratch
from the current auxiliary network at the start of every iteration
(`calc_throughput`, with the source's in-capacity and the sink's out-capacity
the `sys.maxint` sentinel), prunes it, and selects the minimum node from that
fresh table only: every successful run of `construct_blocking_flow` produces
the very delta map of the variant in which push and pull are never handed the
throughput table at all, so their incremental updates never influence which
node is selected next. -/
theorem blocking_flow_selection_ignores_incremental_throughput
    (fuel source sink : Nat) (aux : Graph) (g gout : DeltaMap)
    (h : construct_blocking_flow fuel source sink aux g = .ok gout) :
    construct_blocking_flow_recomputed fuel source sink aux g = .ok gout :=
  cbfLoop_ok _ _ _ _ _ _ _ h

/-- Witness for C10 at a concrete blocking-flow run. -/
theorem blocking_flow_selection_ignores_incremental_throughput_witness :
    construct_blocking_flow 20 0 2
        [(0, [(1, ⟨5, Dir.F, false⟩)]), (1, [(2, ⟨3, Dir.F, false⟩)]), (2, [])]
        [] = .ok [(0, [(1, 3)]), (1, [(2, 3)])] ∧
      construct_blocking_flow_recomputed 20 0 2
        [(0, [(1, ⟨5, Dir.F, false⟩)]), (1, [(2, ⟨3, Dir.F, false⟩)]), (2, [])]
        [] = .ok [(0, [(1, 3)]), (1, [(2, 3)])] :=
  ⟨by decide,
    blocking_flow_selection_ignores_incremental_throughput 20 0 2
      [(0, [(1, ⟨5, Dir.F, false⟩)]), (1, [(2, ⟨3, Dir.F, false⟩)]), (2, [])]
      [] [(0, [(1, 3)]), (1, [(2, 3)])] (by decide)⟩

/-! ## Sorted-dict lemmas -/

theorem dsorted_dset {α : Type} {d : Dict α} {k : Nat} {v : α}
    (h : dsorted d) : dsorted (dset d k v) := by
  induction d with
  | nil => simp [dsorted, dset]
  | cons p rest ih =>
    obtain ⟨k₁, v₁⟩ := p
    rw [dsorted, List.pairwise_cons] at h
    obtain ⟨hlt, hrest⟩ := h
    by_cases h1 : k < k₁
    · simp only [dset, if_pos h1, dsorted, List.pairwise_cons]
      refine ⟨?_, ?_, hrest⟩
      · intro q hq
        rcases List.mem_cons.mp hq with h' | h'
        · rw [h']; exact h1
        · exact lt_trans h1 (hlt q h')
      · exact hlt
    · by_cases h2 : k = k₁
      · subst h2
        simp only [dset, if_neg h1, eq_self_iff_true, if_true, dsorted,
          List.pairwise_cons]
        exact ⟨hlt, hrest⟩
      · simp only [dset, if_neg h1, if_neg h2, dsorted, List.pairwise_cons]
        refine ⟨?_, ih hrest⟩
        intro q hq
        rcases mem_dset hq with h' | h'
        · rw [h']
          omega
        · exact hlt q h'

theorem dsorted_derase {α : Type} {d : Dict α} {k : Nat}
    (h : dsorted d) : dsorted (derase d k) :=
  List.Pairwise.sublist (List.filter_sublist d) h

theorem mem_dlookup {α : Type} {d : Dict α} {k : Nat} {v : α}
    (hs : dsorted d) (h : (k, v) ∈ d) : dlookup d k = some v := by
  induction d with
  | nil => simp at h
  | cons p rest ih =>
    obtain ⟨k₁, v₁⟩ := p
    rw [dsorted, List.pairwise_cons] at hs
    obtain ⟨hlt, hrest⟩ := hs
    rcases List.mem_cons.mp h with h' | h'
    · obtain ⟨hk, hv⟩ := Prod.mk.injEq .. ▸ h'
      subst hk; subst hv
      simp [dlookup_cons]
    · have hkk : k ≠ k₁ := by
        intro he
        subst he
        exact absurd (hlt _ h') (lt_irrefl k)
      rw [dlookup_cons, if_neg hkk]
      exact ih hrest h'

theorem dsorted2_setEdge {g : Graph} {u v : Nat} {e : REdge}
    (h : dsorted2 g) : dsorted2 (setEdge g u v e) := by
  obtain ⟨ho, hi⟩ := h
  constructor
  · exact dsorted_dset ho
  · intro p hp
    rcases mem_dset hp with h' | h'
    · rw [h']
      refine dsorted_dset ?_
      unfold dgetD
      cases hg : dlookup g u with
      | none => simp [dsorted]
      | some adj => simpa using hi _ (dlookup_mem hg)
    · exact hi _ h'

theorem dsorted2_gAdd {g : DeltaMap} {a b : Nat} {m : Int}
    (h : dsorted2 g) : dsorted2 (gAdd g a b m) := by
  obtain ⟨ho, hi⟩ := h
  constructor
  · exact dsorted_dset ho
  · intro p hp
    rcases mem_dset hp with h' | h'
    · rw [h']
      refine dsorted_dset ?_
      unfold dgetD
      cases hg : dlookup g a with
      | none => simp [dsorted]
      | some adj => simpa using hi _ (dlookup_mem hg)
    · exact hi _ h'

theorem dsorted2_delete_node {g : Graph} {x : Nat}
    (h : dsorted2 g) : dsorted2 (delete_node x g) := by
  obtain ⟨ho, hi⟩ := h
  cases g with
  | nil => exact ⟨by simp [delete_node, dsorted], by simp [delete_node]⟩
  | cons p rest =>
    constructor
    · have h1 : dsorted (derase (p :: rest) x) := dsorted_derase ho
      unfold dsorted at h1 ⊢
      unfold delete_node
      simp only
      exact (List.pairwise_map).mpr (h1.imp (fun hpq => hpq))
    · intro q hq
      unfold delete_node at hq
      simp only [List.mem_map] at hq
      obtain ⟨r, hr, hq'⟩ := hq
      rw [← hq']
      exact dsorted_derase (hi r (mem_derase hr))

theorem setEdge_setEdge (g : Graph) (u v : Nat) (e1 e2 : REdge) :
    setEdge (setEdge g u v e1) u v e2 = setEdge g u v e2 := by
  unfold setEdge
  rw [dgetD_dset_self]
  have hdd : ∀ (d : Dict REdge) (k : Nat) (x y : REdge),
      dset (dset d k x) k y = dset d k y := by
    intro d k x y
    induction d with
    | nil => simp [dset]
    | cons p rest ih =>
      obtain ⟨k₁, v₁⟩ := p
      by_cases h1 : k < k₁
      · simp [dset, h1, lt_irrefl]
      · by_cases h2 : k = k₁
        · subst h2
          simp [dset, h1, lt_irrefl]
        · simp [dset, h1, h2, ih]
  rw [hdd]
  have hgg : ∀ (G : Graph) (k : Nat) (x y : Dict REdge),
      dset (dset G k x) k y = dset G k y := by
    intro G k x y
    induction G with
    | nil => simp [dset]
    | cons p rest ih =>
      obtain ⟨k₁, v₁⟩ := p
      by_cases h1 : k < k₁
      · simp [dset, h1, lt_irrefl]
      · by_cases h2 : k = k₁
        · subst h2
          simp [dset, h1, lt_irrefl]
        · simp [dset, h1, h2, ih]
  rw [hgg]

theorem fcap_setEdge (aux : Graph) (x y : Nat) (e : REdge) (u v : Nat) :
    fcap (setEdge aux x y e) u v =
      if u = x ∧ v = y then (if e.dir = Dir.F then e.cap else 0)
      else fcap aux u v := by
  unfold fcap
  rw [edgeIn_setEdge]
  by_cases h : u = x ∧ v = y
  · simp [h]
  · simp [h]

theorem bcap_setEdge (aux : Graph) (x y : Nat) (e : REdge) (u v : Nat) :
    bcap (setEdge aux x y e) u v =
      if u = x ∧ v = y then (if e.dir = Dir.B then e.cap else 0)
      else bcap aux u v := by
  unfold bcap
  rw [edgeIn_setEdge]
  by_cases h : u = x ∧ v = y
  · simp [h]
  · simp [h]

theorem dlookup_map_val {α β : Type} (d : Dict α) (f : Nat → α → β) (u : Nat) :
    dlookup (d.map (fun q => (q.1, f q.1 q.2))) u =
      Option.map (f u) (dlookup d u) := by
  induction d with
  | nil => rfl
  | cons p rest ih =>
    obtain ⟨k₁, v₁⟩ := p
    simp only [List.map_cons, dlookup_cons]
    by_cases h : u = k₁
    · subst h; simp
    · simp [h, ih]

theorem edgeIn_delete_node {g : Graph} {x u v : Nat} {e : REdge}
    (h : edgeIn (delete_node x g) u v = some e) : edgeIn g u v = some e := by
  cases g with
  | nil => simp [delete_node, edgeIn, dlookup] at h
  | cons p rest =>
    have hdn : delete_node x (p :: rest) =
        (derase (p :: rest) x).map (fun q => (q.1, derase q.2 x)) := rfl
    rw [hdn] at h
    unfold edgeIn at h ⊢
    rw [dlookup_map_val (derase (p :: rest) x) (fun _ adj => derase adj x) u] at h
    cases hd : dlookup (derase (p :: rest) x) u with
    | none => rw [hd] at h; simp at h
    | some adj =>
      rw [hd] at h
      simp only [Option.map_some'] at h
      rw [dlookup_derase] at hd
      rw [dlookup_derase] at h
      by_cases hux : u = x
      · rw [if_pos hux] at hd; exact absurd hd (by simp)
      · rw [if_neg hux] at hd
        by_cases hvx : v = x
        · rw [if_pos hvx] at h; exact absurd h (by simp)
        · rw [if_neg hvx] at h
          rw [hd]
          exact h

/-! ## Invariant step lemmas -/

theorem reqOK_dset {req : Dict Int} {k : Nat} {x : Int}
    (h : reqOK req) (hx : 0 ≤ x) : reqOK (dset req k x) := by
  intro p hp
  rcases mem_dset hp with h' | h'
  · rw [h']; exact hx
  · exact h _ h'

theorem fcap_nonneg {net : Net} {aux : Graph} (hA : auxEdgesOK net aux)
    (u v : Nat) : 0 ≤ fcap aux u v := by
  unfold fcap
  cases he : edgeIn aux u v with
  | none => simp
  | some e =>
    by_cases hd : e.dir = Dir.F
    · simp only [hd, if_pos rfl]
      exact (hA _ _ _ he).1
    · simp [hd]

theorem bcap_nonneg {net : Net} {aux : Graph} (hA : auxEdgesOK net aux)
    (u v : Nat) : 0 ≤ bcap aux u v := by
  unfold bcap
  cases he : edgeIn aux u v with
  | none => simp
  | some e =>
    by_cases hd : e.dir = Dir.B
    · simp only [hd, if_pos rfl]
      exact (hA _ _ _ he).1
    · simp [hd]

theorem fcap_of_edge {aux : Graph} {x y : Nat} {e : REdge}
    (he : edgeIn aux x y = some e) (hd : e.dir = Dir.F) :
    fcap aux x y = e.cap := by
  unfold fcap; simp only [he]; simp [hd]

theorem fcap_of_edge_B {aux : Graph} {x y : Nat} {e : REdge}
    (he : edgeIn aux x y = some e) (hd : e.dir = Dir.B) :
    fcap aux x y = 0 := by
  unfold fcap; simp only [he]; simp [hd]

theorem bcap_of_edge {aux : Graph} {x y : Nat} {e : REdge}
    (he : edgeIn aux x y = some e) (hd : e.dir = Dir.B) :
    bcap aux x y = e.cap := by
  unfold bcap; simp only [he]; simp [hd]

theorem bcap_of_edge_F {aux : Graph} {x y : Nat} {e : REdge}
    (he : edgeIn aux x y = some e) (hd : e.dir = Dir.F) :
    bcap aux x y = 0 := by
  unfold bcap; simp only [he]; simp [hd]

theorem INV_gAdd_F {net : Net} {aux : Graph} {g : DeltaMap} {x y : Nat}
    {e : REdge} {m : Int} (b : Bool)
    (hI : INV net aux g) (he : edgeIn aux x y = some e) (hdir : e.dir = Dir.F)
    (hmc : m ≤ e.cap) :
    INV net (setEdge aux x y ⟨e.cap - m, e.dir, b⟩) (gAdd g x y m) := by
  obtain ⟨hA, hD, hS⟩ := hI
  have harc : (arcLookup net x y).isSome = true := (hA _ _ _ he).2.1 hdir
  refine ⟨?_, ?_, dsorted2_gAdd hS⟩
  · intro u v e' he'
    rw [edgeIn_setEdge] at he'
    by_cases hxy : u = x ∧ v = y
    · rw [if_pos hxy] at he'
      obtain ⟨hu, hv⟩ := hxy
      subst hu; subst hv
      injection he' with he2
      subst he2
      refine ⟨?_, fun hdf => (hA _ _ _ he).2.1 hdf,
        fun hdb => (hA _ _ _ he).2.2 hdb⟩
      have hc0 : (0 : Int) ≤ e.cap := (hA _ _ _ he).1
      change (0 : Int) ≤ e.cap - m
      omega
    · rw [if_neg hxy] at he'
      exact hA _ _ _ he'
  · intro p hp q hq
    rcases mem_gAdd hp with ⟨hp1, hq'⟩ | hp'
    · rcases hq' q hq with hqb | ⟨adj, hadj, hqadj⟩
      · rw [hp1, hqb]; exact harc
      · rw [hp1]; exact hD _ (dlookup_mem hadj) _ hqadj
    · exact hD _ hp' _ hq

theorem INV_gAdd_B {net : Net} {aux : Graph} {g : DeltaMap} {x y : Nat}
    {e : REdge} {m : Int} (b : Bool)
    (hI : INV net aux g) (he : edgeIn aux x y = some e) (hdir : e.dir = Dir.B)
    (hmc : m ≤ e.cap) :
    INV net (setEdge aux x y ⟨e.cap - m, e.dir, b⟩) (gAdd g y x (-m)) := by
  obtain ⟨hA, hD, hS⟩ := hI
  have harc : (arcLookup net y x).isSome = true := (hA _ _ _ he).2.2 hdir
  refine ⟨?_, ?_, dsorted2_gAdd hS⟩
  · intro u v e' he'
    rw [edgeIn_setEdge] at he'
    by_cases hxy : u = x ∧ v = y
    · rw [if_pos hxy] at he'
      obtain ⟨hu, hv⟩ := hxy
      subst hu; subst hv
      injection he' with he2
      subst he2
      refine ⟨?_, fun hdf => (hA _ _ _ he).2.1 hdf,
        fun hdb => (hA _ _ _ he).2.2 hdb⟩
      have hc0 : (0 : Int) ≤ e.cap := (hA _ _ _ he).1
      change (0 : Int) ≤ e.cap - m
      omega
    · rw [if_neg hxy] at he'
      exact hA _ _ _ he'
  · intro p hp q hq
    rcases mem_gAdd hp with ⟨hp1, hq'⟩ | hp'
    · rcases hq' q hq with hqb | ⟨adj, hadj, hqadj⟩
      · rw [hp1, hqb]; exact harc
      · rw [hp1]; exact hD _ (dlookup_mem hadj) _ hqadj
    · exact hD _ hp' _ hq

theorem INV_delete_node {net : Net} {aux : Graph} {g : DeltaMap} {x : Nat}
    (hI : INV net aux g) : INV net (delete_node x aux) g := by
  obtain ⟨hA, hD, hS⟩ := hI
  exact ⟨fun u v e he => hA _ _ _ (edgeIn_delete_node he), hD, hS⟩

/-! ## C9 machinery: the phase invariant through push, pull and pruning -/

theorem pushInner_inv {net : Net} {v : Nat} :
    ∀ (ns : List Nat) (aux : Graph) (thr : Thr) (g : DeltaMap)
      (req : Dict Int) (que : List Nat) (a : Graph) (t : Thr) (g' : DeltaMap)
      (req' : Dict Int) (que' : List Nat),
      pushInner v ns (aux, thr, g, req, que) = .ok (a, t, g', req', que') →
      INV net aux g → INV net a g' := by
  intro ns
  induction ns with
  | nil =>
    intro aux thr g req que a t g' req' que' h hI
    simp only [pushInner] at h
    injection h with h2
    injection h2 with ha h2
    injection h2 with _ h2
    injection h2 with hg h2
    subst ha; subst hg
    exact hI
  | cons n rest ih =>
    intro aux thr g req que a t g' req' que' h hI
    simp only [pushInner] at h
    cases hrv : dlookup req v with
    | none => simp only [hrv] at h; exact Res.noConfusion h
    | some rv =>
      simp only [hrv] at h
      by_cases hz : rv = 0
      · simp only [hz, if_pos rfl] at h
        injection h with h2
        injection h2 with ha h2
        injection h2 with _ h2
        injection h2 with hg h2
        subst ha; subst hg
        exact hI
      · simp only [if_neg hz] at h
        cases hav : dlookup aux v with
        | none => simp only [hav] at h; exact Res.noConfusion h
        | some adj =>
          simp only [hav] at h
          cases han : dlookup adj n with
          | none => simp only [han] at h; exact Res.noConfusion h
          | some e =>
            simp only [han] at h
            have he : edgeIn aux v n = some e := by
              simp only [edgeIn, hav]; exact han
            have hmc : min e.cap rv ≤ e.cap := min_le_left _ _
            by_cases hu : e.used
            · simp only [if_pos hu] at h
              exact ih _ _ _ _ _ _ _ _ _ _ h hI
            · simp only [if_neg hu] at h
              by_cases hnc : e.cap - min e.cap rv = 0
              · rw [if_pos hnc] at h
                obtain ⟨t3, _, h2⟩ := res_ok_of_bind_ok h
                rw [res_pure_bind] at h2
                simp only at h2
                rw [setEdge_setEdge] at h2
                cases hreqn : dlookup (dset req v (rv - min e.cap rv)) n with
                | none => simp only [hreqn] at h2; exact Res.noConfusion h2
                | some rn =>
                  simp only [hreqn] at h2
                  by_cases hdb : e.dir = Dir.B
                  · rw [if_pos hdb] at h2
                    exact ih _ _ _ _ _ _ _ _ _ _ h2
                      (INV_gAdd_B true hI he hdb hmc)
                  · rw [if_neg hdb] at h2
                    have hdf : e.dir = Dir.F := by
                      cases hdd : e.dir with
                      | F => rfl
                      | B => exact absurd hdd hdb
                    exact ih _ _ _ _ _ _ _ _ _ _ h2
                      (INV_gAdd_F true hI he hdf hmc)
              · rw [if_neg hnc] at h
                rw [res_pure_bind] at h
                simp only at h
                cases hreqn : dlookup (dset req v (rv - min e.cap rv)) n with
                | none => simp only [hreqn] at h; exact Res.noConfusion h
                | some rn =>
                  simp only [hreqn] at h
                  by_cases hdb : e.dir = Dir.B
                  · rw [if_pos hdb] at h
                    exact ih _ _ _ _ _ _ _ _ _ _ h
                      (INV_gAdd_B e.used hI he hdb hmc)
                  · rw [if_neg hdb] at h
                    have hdf : e.dir = Dir.F := by
                      cases hdd : e.dir with
                      | F => rfl
                      | B => exact absurd hdd hdb
                    exact ih _ _ _ _ _ _ _ _ _ _ h
                      (INV_gAdd_F e.used hI he hdf hmc)

theorem pushLoop_inv {net : Net} :
    ∀ (fuel : Nat) (que : List Nat) (aux : Graph) (thr : Thr) (g : DeltaMap)
      (req : Dict Int) (a : Graph) (t : Thr) (g' : DeltaMap),
      pushLoop fuel que (aux, thr, g, req) = .ok (a, t, g') →
      INV net aux g → INV net a g' := by
  intro fuel
  induction fuel with
  | zero => intro que aux thr g req a t g' h hI; exact Res.noConfusion h
  | succ n ih =>
    intro que aux thr g req a t g' h hI
    cases que with
    | nil =>
      simp only [pushLoop] at h
      injection h with h2
      injection h2 with ha h2
      injection h2 with _ hg
      subst ha; subst hg
      exact hI
    | cons v rest =>
      simp only [pushLoop] at h
      cases hav : dlookup aux v with
      | none => simp only [hav] at h; exact Res.noConfusion h
      | some adj =>
        simp only [hav] at h
        obtain ⟨⟨a1, t1, g1, r1, q1⟩, hin, h2⟩ := res_ok_of_bind_ok h
        simp only at h2
        exact ih _ _ _ _ _ _ _ _ h2
          (pushInner_inv _ _ _ _ _ _ _ _ _ _ _ hin hI)

theorem push_inv {net : Net} {fuel y : Nat} {h : Int} {aux : Graph}
    {thr : Thr} {g : DeltaMap} {a : Graph} {t : Thr} {g' : DeltaMap}
    (hp : push fuel y h aux thr g = .ok (a, t, g'))
    (hI : INV net aux g) : INV net a g' :=
  pushLoop_inv _ _ _ _ _ _ _ _ _ hp hI

theorem pullInner_inv {net : Net} :
    ∀ (us : List Nat) (v : Nat) (aux : Graph) (thr : Thr) (g : DeltaMap)
      (req : Dict Int) (que : List Nat) (v2 : Nat) (a : Graph) (t : Thr)
      (g' : DeltaMap) (req' : Dict Int) (que' : List Nat),
      pullInner us (v, aux, thr, g, req, que) = .ok (v2, a, t, g', req', que') →
      INV net aux g → INV net a g' := by
  intro us
  induction us with
  | nil =>
    intro v aux thr g req que v2 a t g' req' que' h hI
    simp only [pullInner] at h
    injection h with h2
    injection h2 with hv h2
    injection h2 with ha h2
    injection h2 with _ h2
    injection h2 with hg h2
    subst ha; subst hg
    exact hI
  | cons u rest ih =>
    intro v aux thr g req que v2 a t g' req' que' h hI
    simp only [pullInner] at h
    cases hrv : dlookup req v with
    | none => simp only [hrv] at h; exact Res.noConfusion h
    | some rv =>
      simp only [hrv] at h
      by_cases hz : rv = 0
      · simp only [hz, if_pos rfl] at h
        injection h with h2
        injection h2 with hv h2
        injection h2 with ha h2
        injection h2 with _ h2
        injection h2 with hg h2
        subst ha; subst hg
        exact hI
      · simp only [if_neg hz] at h
        cases hau : dlookup aux u with
        | none => simp only [hau] at h; exact Res.noConfusion h
        | some adj =>
          simp only [hau] at h
          cases hav : dlookup adj v with
          | none =>
            simp only [hav] at h
            exact ih _ _ _ _ _ _ _ _ _ _ _ _ h hI
          | some e =>
            simp only [hav] at h
            have he : edgeIn aux u v = some e := by
              simp only [edgeIn, hau]; exact hav
            have hmc : min e.cap rv ≤ e.cap := min_le_left _ _
            by_cases hu : e.used
            · simp only [if_pos hu] at h
              exact ih _ _ _ _ _ _ _ _ _ _ _ _ h hI
            · simp only [if_neg hu] at h
              by_cases hnc : e.cap - min e.cap rv = 0
              · rw [if_pos hnc] at h
                obtain ⟨t3, _, h2⟩ := res_ok_of_bind_ok h
                obtain ⟨t4, _, h3⟩ := res_ok_of_bind_ok h2
                rw [res_pure_bind] at h3
                simp only at h3
                rw [setEdge_setEdge] at h3
                cases hreqn : dlookup (dset req v (rv - min e.cap rv)) u with
                | none => simp only [hreqn] at h3; exact Res.noConfusion h3
                | some ru =>
                  simp only [hreqn] at h3
                  by_cases hdb : e.dir = Dir.B
                  · rw [if_pos hdb, if_pos hdb] at h3
                    exact ih _ _ _ _ _ _ _ _ _ _ _ _ h3
                      (INV_gAdd_B true hI he hdb hmc)
                  · rw [if_neg hdb, if_neg hdb] at h3
                    have hdf : e.dir = Dir.F := by
                      cases hdd : e.dir with
                      | F => rfl
                      | B => exact absurd hdd hdb
                    exact ih _ _ _ _ _ _ _ _ _ _ _ _ h3
                      (INV_gAdd_F true hI he hdf hmc)
              · rw [if_neg hnc] at h
                rw [res_pure_bind] at h
                simp only at h
                cases hreqn : dlookup (dset req v (rv - min e.cap rv)) u with
                | none => simp only [hreqn] at h; exact Res.noConfusion h
                | some ru =>
                  simp only [hreqn] at h
                  by_cases hdb : e.dir = Dir.B
                  · rw [if_pos hdb, if_pos hdb] at h
                    exact ih _ _ _ _ _ _ _ _ _ _ _ _ h
                      (INV_gAdd_B e.used hI he hdb hmc)
                  · rw [if_neg hdb, if_neg hdb] at h
                    have hdf : e.dir = Dir.F := by
                      cases hdd : e.dir with
                      | F => rfl
                      | B => exact absurd hdd hdb
                    exact ih _ _ _ _ _ _ _ _ _ _ _ _ h
                      (INV_gAdd_F e.used hI he hdf hmc)

theorem pullLoop_inv {net : Net} :
    ∀ (fuel : Nat) (que : List Nat) (aux : Graph) (thr : Thr) (g : DeltaMap)
      (req : Dict Int) (a : Graph) (t : Thr) (g' : DeltaMap),
      pullLoop fuel que (aux, thr, g, req) = .ok (a, t, g') →
      INV net aux g → INV net a g' := by
  intro fuel
  induction fuel with
  | zero => intro que aux thr g req a t g' h hI; exact Res.noConfusion h
  | succ n ih =>
    intro que aux thr g req a t g' h hI
    cases que with
    | nil =>
      simp only [pullLoop] at h
      injection h with h2
      injection h2 with ha h2
      injection h2 with _ hg
      subst ha; subst hg
      exact hI
    | cons v rest =>
      simp only [pullLoop] at h
      obtain ⟨⟨v1, a1, t1, g1, r1, q1⟩, hin, h2⟩ := res_ok_of_bind_ok h
      simp only at h2
      exact ih _ _ _ _ _ _ _ _ h2
        (pullInner_inv _ _ _ _ _ _ _ _ _ _ _ _ _ hin hI)

theorem pull_inv {net : Net} {fuel s y : Nat} {h : Int} {aux : Graph}
    {thr : Thr} {g : DeltaMap} {a : Graph} {t : Thr} {g' : DeltaMap}
    (hp : pull fuel s y h aux thr g = .ok (a, t, g'))
    (hI : INV net aux g) : INV net a g' :=
  pullLoop_inv _ _ _ _ _ _ _ _ _ hp hI

theorem dztPass_inv {net : Net} {g : DeltaMap} {source sink : Nat} :
    ∀ (nodes : List Nat) (aux : Graph) (thr : Thr) (hz : Bool) (a : Graph)
      (t : Thr) (hz' : Bool),
      dztPass source sink nodes aux thr hz = .ok (some (a, t, hz')) →
      INV net aux g → INV net a g := by
  intro nodes
  induction nodes with
  | nil =>
    intro aux thr hz a t hz' h hI
    simp only [dztPass] at h
    injection h with h2
    injection h2 with h3
    injection h3 with ha h4
    subst ha
    exact hI
  | cons node rest ih =>
    intro aux thr hz a t hz' h hI
    simp only [dztPass] at h
    cases htn : dlookup thr node with
    | none => simp only [htn] at h; exact ih _ _ _ _ _ _ h hI
    | some io =>
      simp only [htn] at h
      by_cases hmin : min io.1 io.2 = 0
      · rw [if_pos hmin] at h
        by_cases hss : node = source ∨ node = sink
        · rw [if_pos hss] at h
          injection h with h2
          exact Option.noConfusion h2
        · rw [if_neg hss] at h
          cases han : dlookup aux node with
          | none => simp only [han] at h; exact Res.noConfusion h
          | some adj =>
            simp only [han] at h
            obtain ⟨t1, _, h2⟩ := res_ok_of_bind_ok h
            obtain ⟨t2, _, h3⟩ := res_ok_of_bind_ok h2
            exact ih _ _ _ _ _ _ h3 (INV_delete_node hI)
      · rw [if_neg hmin] at h
        exact ih _ _ _ _ _ _ h hI

theorem dztLoop_inv {net : Net} {g : DeltaMap} {source sink : Nat} :
    ∀ (fuel : Nat) (aux : Graph) (thr : Thr) (a : Graph) (t : Thr),
      dztLoop source sink fuel aux thr = .ok (some (a, t)) →
      INV net aux g → INV net a g := by
  intro fuel
  induction fuel with
  | zero => intro aux thr a t h hI; exact Res.noConfusion h
  | succ n ih =>
    intro aux thr a t h hI
    simp only [dztLoop] at h
    obtain ⟨o, hp, h2⟩ := res_ok_of_bind_ok h
    cases o with
    | none =>
      simp only at h2
      have h3 : Res.ok (none : Option (Graph × Thr)) =
          Res.ok (some (a, t)) := h2
      injection h3 with h4
      exact Option.noConfusion h4
    | some s3 =>
      obtain ⟨a1, t1, hz1⟩ := s3
      simp only at h2
      by_cases hb : hz1 = true
      · rw [if_pos hb] at h2
        exact ih _ _ _ _ h2 (dztPass_inv _ _ _ _ _ _ _ hp hI)
      · rw [if_neg hb] at h2
        have h3 : Res.ok (some (a1, t1)) = Res.ok (some (a, t)) := h2
        injection h3 with h4
        injection h4 with h5
        injection h5 with ha _
        rw [← ha]
        exact dztPass_inv _ _ _ _ _ _ _ hp hI

theorem cbfLoop_inv {net : Net} {inner source sink : Nat} :
    ∀ (n : Nat) (aux : Graph) (g gout : DeltaMap),
      cbfLoop inner source sink n aux g = .ok gout →
      INV net aux g → ∃ a, INV net a gout := by
  intro n
  induction n with
  | zero => intro aux g gout h hI; exact Res.noConfusion h
  | succ n ih =>
    intro aux g gout h hI
    simp only [cbfLoop] at h
    obtain ⟨odz, hdz, h2⟩ := res_ok_of_bind_ok h
    cases odz with
    | none =>
      have h3 : Res.ok g = Res.ok gout := h2
      injection h3 with h4
      exact ⟨aux, h4 ▸ hI⟩
    | some pr =>
      obtain ⟨aux1, thr1⟩ := pr
      simp only at h2
      have hI1 : INV net aux1 g := dztLoop_inv _ _ _ _ _ hdz hI
      by_cases hmem : dmem aux1 source = true ∧ dmem aux1 sink = true
      · rw [if_neg (by simpa using hmem)] at h2
        cases hsel : cbfSelect thr1 with
        | mk oy hv =>
          rw [hsel] at h2
          cases oy with
          | none => exact Res.noConfusion h2
          | some y =>
            simp only at h2
            obtain ⟨⟨a1, t1, g1⟩, hpush, h3⟩ := res_ok_of_bind_ok h2
            simp only at h3
            obtain ⟨⟨a2, t2, g2⟩, hpull, h4⟩ := res_ok_of_bind_ok h3
            simp only at h4
            exact ih _ _ _ h4 (pull_inv hpull (push_inv hpush hI1))
      · rw [if_pos (by simpa using hmem)] at h2
        have h3 : Res.ok g = Res.ok gout := h2
        injection h3 with h4
        exact ⟨aux1, h4 ▸ hI1⟩

theorem construct_blocking_flow_inv {net : Net} {fuel source sink : Nat}
    {aux : Graph} {g gout : DeltaMap}
    (h : construct_blocking_flow fuel source sink aux g = .ok gout)
    (hI : INV net aux g) : ∃ a, INV net a gout :=
  cbfLoop_inv _ _ _ _ h hI

/-! ## C9 machinery: the initial invariant from the residual and auxiliary
builders -/

theorem edgeIn_dset_empty (g : Graph) (k : Nat) (u v : Nat) :
    edgeIn (dset g k []) u v = if u = k then none else edgeIn g u v := by
  unfold edgeIn
  rw [dlookup_dset]
  by_cases h : u = k
  · rw [if_pos h, if_pos h]
    simp [dlookup]
  · rw [if_neg h, if_neg h]

theorem auxEdgesOK_dset_empty {net : Net} {g : Graph} {k : Nat}
    (hok : auxEdgesOK net g) : auxEdgesOK net (dset g k []) := by
  intro u v e he
  rw [edgeIn_dset_empty] at he
  by_cases h : u = k
  · rw [if_pos h] at he; exact Option.noConfusion he
  · rw [if_neg h] at he; exact hok _ _ _ he

theorem dsorted2_dset_empty {α : Type} {g : Dict (Dict α)} {k : Nat}
    (hs : dsorted2 g) : dsorted2 (dset g k ([] : Dict α)) := by
  refine ⟨dsorted_dset hs.1, ?_⟩
  intro p hp
  rcases mem_dset hp with h | h
  · rw [h]; exact List.Pairwise.nil
  · exact hs.2 _ h

theorem auxEdgesOK_setEdge {net : Net} {g : Graph} {x y : Nat} {e : REdge}
    (hok : auxEdgesOK net g) (hc : 0 ≤ e.cap)
    (hf : e.dir = Dir.F → (arcLookup net x y).isSome = true)
    (hb : e.dir = Dir.B → (arcLookup net y x).isSome = true) :
    auxEdgesOK net (setEdge g x y e) := by
  intro u v e' he'
  rw [edgeIn_setEdge] at he'
  by_cases hxy : u = x ∧ v = y
  · rw [if_pos hxy] at he'
    obtain ⟨hu, hv⟩ := hxy
    subst hu; subst hv
    injection he' with he2
    subst he2
    exact ⟨hc, hf, hb⟩
  · rw [if_neg hxy] at he'
    exact hok _ _ _ he'

theorem grOK_dset_if {net : Net} {g : Graph} (k : Nat) (c : Prop)
    [Decidable c] (hok : auxEdgesOK net g ∧ dsorted2 g) :
    auxEdgesOK net (if c then g else dset g k []) ∧
      dsorted2 (if c then g else dset g k []) := by
  by_cases h : c
  · rw [if_pos h]
    exact hok
  · rw [if_neg h]
    exact ⟨auxEdgesOK_dset_empty hok.1, dsorted2_dset_empty hok.2⟩

theorem grOK_setEdge_if {net : Net} {g : Graph} (x y : Nat) (e : REdge)
    (c : Prop) [Decidable c] (hok : auxEdgesOK net g ∧ dsorted2 g)
    (hc : c → 0 ≤ e.cap)
    (hf : e.dir = Dir.F → (arcLookup net x y).isSome = true)
    (hb : e.dir = Dir.B → (arcLookup net y x).isSome = true) :
    auxEdgesOK net (if c then setEdge g x y e else g) ∧
      dsorted2 (if c then setEdge g x y e else g) := by
  by_cases h : c
  · rw [if_pos h]
    exact ⟨auxEdgesOK_setEdge hok.1 (hc h) hf hb, dsorted2_setEdge hok.2⟩
  · rw [if_neg h]
    exact hok

theorem brEdge_inv {net : Net} {now e : Nat} {a : Arc}
    {st : Graph × List Nat × List Nat}
    (harc : arcLookup net now e = some a)
    (hok : auxEdgesOK net st.1 ∧ dsorted2 st.1) :
    auxEdgesOK net (brEdge now e a st).1 ∧ dsorted2 (brEdge now e a st).1 := by
  obtain ⟨nr, que, visited⟩ := st
  exact grOK_setEdge_if e now ⟨a.flow, Dir.B, false⟩ (a.flow > 0)
    (grOK_setEdge_if now e ⟨a.cap - a.flow, Dir.F, false⟩ (a.cap - a.flow > 0)
      (grOK_dset_if e _
        (grOK_dset_if now _ hok))
      (fun h => by change (0:Int) ≤ a.cap - a.flow; omega)
      (fun _ => by rw [harc]; rfl)
      (fun hbd => Dir.noConfusion hbd))
    (fun h => by change (0:Int) ≤ a.flow; omega)
    (fun hfd => Dir.noConfusion hfd)
    (fun _ => by rw [harc]; rfl)

theorem brFold_inv {net : Net} {now : Nat} :
    ∀ (adj : Dict Arc) (st : Graph × List Nat × List Nat),
      (∀ p ∈ adj, arcLookup net now p.1 = some p.2) →
      auxEdgesOK net st.1 ∧ dsorted2 st.1 →
      auxEdgesOK net
          (adj.foldl (fun st (p : Nat × Arc) => brEdge now p.1 p.2 st) st).1 ∧
        dsorted2
          (adj.foldl (fun st (p : Nat × Arc) => brEdge now p.1 p.2 st) st).1 := by
  intro adj
  induction adj with
  | nil => intro st _ hok; exact hok
  | cons q rest ih =>
    intro st harcs hok
    simp only [List.foldl_cons]
    exact ih _ (fun p hp => harcs p (List.mem_cons_of_mem _ hp))
      (brEdge_inv (harcs q (List.mem_cons_self _ _)) hok)

theorem brLoop_inv {net : Net} {sink : Nat} (hs : dsorted2 net) :
    ∀ (fuel : Nat) (que visited : List Nat) (nr nr' : Graph),
      brLoop net sink fuel que visited nr = .ok nr' →
      auxEdgesOK net nr ∧ dsorted2 nr →
      auxEdgesOK net nr' ∧ dsorted2 nr' := by
  intro fuel
  induction fuel with
  | zero => intro que visited nr nr' h hok; exact Res.noConfusion h
  | succ n ih =>
    intro que visited nr nr' h hok
    cases que with
    | nil =>
      simp only [brLoop] at h
      injection h with h2
      rw [← h2]
      exact hok
    | cons now rest =>
      simp only [brLoop] at h
      cases hnow : dlookup net now with
      | none => simp only [hnow] at h; exact Res.noConfusion h
      | some adj =>
        simp only [hnow] at h
        have harcs : ∀ p ∈ adj, arcLookup net now p.1 = some p.2 := by
          intro p hp
          have hsa : dsorted adj := hs.2 _ (dlookup_mem hnow)
          unfold arcLookup
          rw [hnow]
          exact mem_dlookup hsa hp
        cases hfe : adj.foldl
            (fun st (p : Nat × Arc) => brEdge now p.1 p.2 st)
            (nr, rest, visited) with
        | mk nr1 pr =>
          obtain ⟨que1, vis1⟩ := pr
          rw [hfe] at h
          have hfold := brFold_inv adj (nr, rest, visited) harcs hok
          rw [hfe] at hfold
          exact ih _ _ _ _ h hfold

theorem build_residual_graph_inv {net : Net} {fuel source sink : Nat}
    {nr : Graph} (hs : dsorted2 net)
    (h : build_residual_graph fuel source sink net = .ok nr) :
    auxEdgesOK net nr ∧ dsorted2 nr := by
  refine brLoop_inv hs _ _ _ _ _ h ⟨?_, ?_, ?_⟩
  · intro u v e he
    simp [edgeIn, dlookup] at he
  · exact List.Pairwise.nil
  · intro p hp
    simp at hp

theorem baEdge_inv {net : Net} {sink now : Nat} {lv : Int} {e : Nat}
    {ed : REdge} {st : Graph × Dict Int × List Nat × List Nat}
    (hc : 0 ≤ ed.cap)
    (hf : ed.dir = Dir.F → (arcLookup net now e).isSome = true)
    (hb : ed.dir = Dir.B → (arcLookup net e now).isSome = true)
    (hok : auxEdgesOK net st.1 ∧ dsorted2 st.1) :
    auxEdgesOK net (baEdge sink now lv e ed st).1 ∧
      dsorted2 (baEdge sink now lv e ed st).1 := by
  obtain ⟨na, vl, que, visited⟩ := st
  simp only [baEdge]
  by_cases h : dmem vl e = true ∧ e ≠ sink
  · rw [if_pos h]
    exact hok
  · rw [if_neg h]
    exact ⟨auxEdgesOK_setEdge hok.1 hc hf hb, dsorted2_setEdge hok.2⟩

theorem baFold_inv {net : Net} (sink now : Nat) (lv : Int) :
    ∀ (adj : Dict REdge) (st : Graph × Dict Int × List Nat × List Nat),
      (∀ p ∈ adj, 0 ≤ p.2.cap ∧
        (p.2.dir = Dir.F → (arcLookup net now p.1).isSome = true) ∧
        (p.2.dir = Dir.B → (arcLookup net p.1 now).isSome = true)) →
      auxEdgesOK net st.1 ∧ dsorted2 st.1 →
      auxEdgesOK net
          (adj.foldl (fun st (p : Nat × REdge) => baEdge sink now lv p.1 p.2 st) st).1 ∧
        dsorted2
          (adj.foldl (fun st (p : Nat × REdge) => baEdge sink now lv p.1 p.2 st) st).1 := by
  intro adj
  induction adj with
  | nil => intro st _ hok; exact hok
  | cons q rest ih =>
    intro st hed hok
    simp only [List.foldl_cons]
    have hq := hed q (List.mem_cons_self _ _)
    exact ih _ (fun p hp => hed p (List.mem_cons_of_mem _ hp))
      (baEdge_inv hq.1 hq.2.1 hq.2.2 hok)

theorem baLoop_inv {net : Net} {nr : Graph} {sink : Nat}
    (hnr : auxEdgesOK net nr ∧ dsorted2 nr) :
    ∀ (fuel : Nat) (que : List Nat) (vl : Dict Int) (visited : List Nat)
      (na : Graph) (na' : Graph) (vl' : Dict Int),
      baLoop nr sink fuel que vl visited na = .ok (na', vl') →
      auxEdgesOK net na ∧ dsorted2 na →
      auxEdgesOK net na' ∧ dsorted2 na' := by
  intro fuel
  induction fuel with
  | zero => intro que vl visited na na' vl' h hok; exact Res.noConfusion h
  | succ n ih =>
    intro que vl visited na na' vl' h hok
    cases que with
    | nil =>
      simp only [baLoop] at h
      injection h with h2
      injection h2 with ha _
      rw [← ha]
      exact hok
    | cons now rest =>
      simp only [baLoop] at h
      cases hnow : dlookup nr now with
      | none => simp only [hnow] at h; exact Res.noConfusion h
      | some adj =>
        simp only [hnow] at h
        cases hlv : dlookup vl now with
        | none => simp only [hlv] at h; exact Res.noConfusion h
        | some lv =>
          simp only [hlv] at h
          have hed : ∀ p ∈ adj, 0 ≤ p.2.cap ∧
              (p.2.dir = Dir.F → (arcLookup net now p.1).isSome = true) ∧
              (p.2.dir = Dir.B → (arcLookup net p.1 now).isSome = true) := by
            intro p hp
            have hsa : dsorted adj := hnr.2.2 _ (dlookup_mem hnow)
            have he : edgeIn nr now p.1 = some p.2 := by
              simp only [edgeIn, hnow]
              exact mem_dlookup hsa hp
            exact hnr.1 _ _ _ he
          have hok1 : auxEdgesOK net (dset na now []) ∧
              dsorted2 (dset na now []) :=
            ⟨auxEdgesOK_dset_empty hok.1, dsorted2_dset_empty hok.2⟩
          cases hfe : adj.foldl
              (fun st (p : Nat × REdge) => baEdge sink now lv p.1 p.2 st)
              (dset na now [], vl, rest, visited) with
          | mk na1 pr =>
            obtain ⟨vl1, que1, vis1⟩ := pr
            rw [hfe] at h
            have hfold := baFold_inv sink now lv adj (dset na now [], vl, rest, visited)
              hed hok1
            rw [hfe] at hfold
            exact ih _ _ _ _ _ _ h hfold

theorem baTrunc_inv {net : Net} (sink : Nat) :
    ∀ (doomed : List Nat) (na : Graph) (complete : Bool),
      auxEdgesOK net na ∧ dsorted2 na →
      auxEdgesOK net (baTrunc sink doomed na complete).1 ∧
        dsorted2 (baTrunc sink doomed na complete).1 := by
  intro doomed
  induction doomed with
  | nil => intro na complete hok; exact hok
  | cons node rest ih =>
    intro na complete hok
    simp only [baTrunc]
    by_cases h : node = sink
    · rw [if_pos h]
      exact ih _ _ hok
    · rw [if_neg h]
      exact ih _ _ ⟨fun u v e he => hok.1 _ _ _ (edgeIn_delete_node he),
        dsorted2_delete_node hok.2⟩

theorem build_auxiliary_vl_inv {net : Net} {nr : Graph}
    {fuel source sink : Nat} {na : Graph} {vl : Dict Int}
    (hnr : auxEdgesOK net nr ∧ dsorted2 nr)
    (h : build_auxiliary_vl fuel source sink nr = .ok (some (na, vl))) :
    auxEdgesOK net na ∧ dsorted2 na := by
  simp only [build_auxiliary_vl] at h
  obtain ⟨⟨na0, vl0⟩, hba, h2⟩ := res_ok_of_bind_ok h
  simp only at h2
  have hok0 : auxEdgesOK net na0 ∧ dsorted2 na0 := by
    refine baLoop_inv hnr _ _ _ _ _ _ _ hba ⟨?_, ?_, ?_⟩
    · intro u v e he
      simp [edgeIn, dlookup] at he
    · exact List.Pairwise.nil
    · intro p hp
      simp at hp
  by_cases hdm : ¬ dmem na0 sink = true
  · rw [if_pos hdm] at h2
    have h3 : Res.ok (none : Option (Graph × Dict Int)) =
        Res.ok (some (na, vl)) := h2
    injection h3 with h4
    exact Option.noConfusion h4
  · rw [if_neg hdm] at h2
    cases hsl : dlookup vl0 sink with
    | none => simp only [hsl] at h2; exact Res.noConfusion h2
    | some sink_level =>
      simp only [hsl] at h2
      cases htr : baTrunc sink
          ((vl0.filter (fun p => p.2 ≥ sink_level)).map Prod.fst) na0 false with
      | mk na1 complete =>
        simp only [htr] at h2
        have htri := baTrunc_inv sink
          ((vl0.filter (fun p => p.2 ≥ sink_level)).map Prod.fst) na0 false hok0
        simp only [htr] at htri
        by_cases hcp : complete = true
        · rw [if_pos hcp] at h2
          have h3 : Res.ok (some (na1, vl0)) = Res.ok (some (na, vl)) := h2
          injection h3 with h4
          injection h4 with h5
          injection h5 with ha _
          rw [← ha]
          exact htri
        · rw [if_neg hcp] at h2
          have h3 : Res.ok (none : Option (Graph × Dict Int)) =
              Res.ok (some (na, vl)) := h2
          injection h3 with h4
          exact Option.noConfusion h4

theorem build_level_graph_INV {net : Net} {fuel source sink : Nat}
    {na : Graph} (hs : dsorted2 net)
    (h : build_level_graph fuel source sink net = .ok (some na)) :
    INV net na [] := by
  simp only [build_level_graph] at h
  obtain ⟨nr, hbr, h2⟩ := res_ok_of_bind_ok h
  have hnr := build_residual_graph_inv hs hbr
  simp only [build_auxiliary] at h2
  obtain ⟨r, hvl, h3⟩ := res_ok_of_bind_ok h2
  cases r with
  | none =>
    have h4 : Res.ok (none : Option Graph) = Res.ok (some na) := h3
    injection h4 with h5
    exact Option.noConfusion h5
  | some pr =>
    obtain ⟨na0, vl0⟩ := pr
    have h4 : Res.ok (some na0) = Res.ok (some na) := h3
    injection h4 with h5
    injection h5 with h6
    rw [← h6]
    have hok := build_auxiliary_vl_inv hnr hvl
    refine ⟨hok.1, ?_, ?_⟩
    · intro p hp
      simp at hp
    · exact ⟨List.Pairwise.nil, fun p hp => by simp at hp⟩

/-! ## C9 machinery: flow_add success and characterization -/

theorem dlookup_none_of_lt {α : Type} :
    ∀ {d : Dict α} {k : Nat}, (∀ p ∈ d, k < p.1) → dlookup d k = none := by
  intro d
  induction d with
  | nil => intro k _; rfl
  | cons p rest ih =>
    intro k h
    obtain ⟨k1, v1⟩ := p
    have hk : k < k1 := h (k1, v1) (List.mem_cons_self _ _)
    simp only [dlookup]
    rw [if_neg (by omega)]
    exact ih (fun q hq => h q (List.mem_cons_of_mem _ hq))

theorem arcLookup_dset (net : Net) (b : Nat) (row2 : Dict Arc) (u v : Nat) :
    arcLookup (dset net b row2) u v =
      if u = b then dlookup row2 v else arcLookup net u v := by
  by_cases hu : u = b
  · subst hu
    unfold arcLookup
    rw [dlookup_dset, if_pos rfl, if_pos rfl]
  · unfold arcLookup
    rw [dlookup_dset, if_neg hu, if_neg hu]

theorem arcLookup_of_row {net : Net} {u : Nat} {row : Dict Arc}
    (h : dlookup net u = some row) (v : Nat) :
    arcLookup net u v = dlookup row v := by
  unfold arcLookup
  rw [h]

theorem flow_add_inner (b : Nat) :
    ∀ (adj : Dict Int) (net : Net),
      (∀ q ∈ adj, (arcLookup net b q.1).isSome = true) →
      dsorted adj →
      ∃ net',
        (adj.foldlM (fun net (q : Nat × Int) =>
          match dlookup net b with
          | none => Res.err
          | some row =>
            match dlookup row q.1 with
            | none => Res.err
            | some ar =>
              Res.ok (dset net b (dset row q.1 ⟨ar.cap, ar.flow + q.2⟩))) net)
          = .ok net' ∧
        ∀ u v, arcLookup net' u v =
          if u = b then
            (arcLookup net u v).map
              (fun ar => ⟨ar.cap, ar.flow + dgetD adj v 0⟩)
          else arcLookup net u v := by
  intro adj
  induction adj with
  | nil =>
    intro net hdom hsort
    refine ⟨net, rfl, ?_⟩
    intro u v
    by_cases hu : u = b
    · rw [if_pos hu]
      cases ho : arcLookup net u v with
      | none => rfl
      | some ar => simp [dgetD, dlookup]
    · rw [if_neg hu]
  | cons q rest ih =>
    obtain ⟨qk, qv⟩ := q
    intro net hdom hsort
    rw [dsorted, List.pairwise_cons] at hsort
    obtain ⟨hlt, htail⟩ := hsort
    have hq : (arcLookup net b qk).isSome = true :=
      hdom (qk, qv) (List.mem_cons_self _ _)
    cases hrow : dlookup net b with
    | none => simp [arcLookup, hrow] at hq
    | some row =>
      cases har : dlookup row qk with
      | none => simp [arcLookup, hrow, har] at hq
      | some ar =>
        set net1 := dset net b (dset row qk ⟨ar.cap, ar.flow + qv⟩) with hnet1
        have hstep : ∀ u v, arcLookup net1 u v =
            if u = b ∧ v = qk then some ⟨ar.cap, ar.flow + qv⟩
            else arcLookup net u v := by
          intro u v
          rw [hnet1, arcLookup_dset]
          by_cases hu : u = b
          · rw [if_pos hu, dlookup_dset]
            by_cases hv : v = qk
            · rw [if_pos hv, if_pos ⟨hu, hv⟩]
            · rw [if_neg hv, if_neg (fun hc => hv hc.2), hu,
                arcLookup_of_row hrow]
          · rw [if_neg hu, if_neg (fun hc => hu hc.1)]
        have hdom1 : ∀ q' ∈ rest, (arcLookup net1 b q'.1).isSome = true := by
          intro q' hq'
          rw [hstep]
          by_cases hc : b = b ∧ q'.1 = qk
          · rw [if_pos hc]; rfl
          · rw [if_neg hc]
            exact hdom q' (List.mem_cons_of_mem _ hq')
        obtain ⟨net2, hfold2, hchar2⟩ := ih net1 hdom1 htail
        refine ⟨net2, ?_, ?_⟩
        · have hcomb : (match dlookup net b with
              | none => Res.err
              | some row =>
                match dlookup row qk with
                | none => Res.err
                | some ar =>
                  Res.ok (dset net b (dset row qk ⟨ar.cap, ar.flow + qv⟩)))
              >>= (fun nn => rest.foldlM (fun net (q : Nat × Int) =>
                match dlookup net b with
                | none => Res.err
                | some row =>
                  match dlookup row q.1 with
                  | none => Res.err
                  | some ar =>
                    Res.ok (dset net b (dset row q.1 ⟨ar.cap, ar.flow + q.2⟩)))
                nn) = Res.ok net2 := by
            simp only [hrow, har, res_bind_ok]
            rw [← hnet1]
            exact hfold2
          exact hcomb
        · intro u v
          rw [hchar2]
          by_cases hu : u = b
          · rw [if_pos hu, if_pos hu, hstep]
            by_cases hv : v = qk
            · rw [if_pos ⟨hu, hv⟩]
              have hnone : dlookup rest qk = none :=
                dlookup_none_of_lt (fun p hp => hlt p hp)
              have harc : arcLookup net u v = some ar := by
                rw [hu, hv, arcLookup_of_row hrow]
                exact har
              rw [harc, hv]
              simp [dgetD, dlookup, hnone]
            · rw [if_neg (fun hc => hv hc.2)]
              have hg : dgetD ((qk, qv) :: rest) v 0 = dgetD rest v 0 := by
                simp [dgetD, dlookup, hv]
              rw [hg]
          · rw [if_neg hu, if_neg hu, hstep, if_neg (fun hc => hu hc.1)]

theorem flow_add_char :
    ∀ (g : DeltaMap) (net : Net),
      (∀ p ∈ g, ∀ q ∈ p.2, (arcLookup net p.1 q.1).isSome = true) →
      dsorted2 g →
      ∃ net', flow_add net g = .ok net' ∧
        ∀ u v, arcLookup net' u v =
          (arcLookup net u v).map
            (fun ar => ⟨ar.cap, ar.flow + gval g u v⟩) := by
  intro g
  induction g with
  | nil =>
    intro net hdom hs
    refine ⟨net, rfl, ?_⟩
    intro u v
    have hz : gval ([] : DeltaMap) u v = 0 := rfl
    rw [hz]
    cases ho : arcLookup net u v with
    | none => rfl
    | some ar => simp
  | cons pr rest ih =>
    obtain ⟨b, adj⟩ := pr
    intro net hdom hs
    rw [dsorted2] at hs
    obtain ⟨hps, hrows⟩ := hs
    rw [dsorted, List.pairwise_cons] at hps
    obtain ⟨hblt, hptail⟩ := hps
    have hadj_sorted : dsorted adj := hrows (b, adj) (List.mem_cons_self _ _)
    have hdom_adj : ∀ q ∈ adj, (arcLookup net b q.1).isSome = true :=
      fun q hq => hdom (b, adj) (List.mem_cons_self _ _) q hq
    obtain ⟨net1, hfold1, hchar1⟩ := flow_add_inner b adj net hdom_adj hadj_sorted
    have hdom1 : ∀ p ∈ rest, ∀ q ∈ p.2, (arcLookup net1 p.1 q.1).isSome = true := by
      intro p hp q hq
      rw [hchar1]
      have hd := hdom p (List.mem_cons_of_mem _ hp) q hq
      by_cases hu : p.1 = b
      · rw [if_pos hu]
        cases ho : arcLookup net p.1 q.1 with
        | none => rw [ho] at hd; simp at hd
        | some ar => rfl
      · rw [if_neg hu]
        exact hd
    have hs1 : dsorted2 rest :=
      ⟨hptail, fun p hp => hrows p (List.mem_cons_of_mem _ hp)⟩
    obtain ⟨net2, hfold2, hchar2⟩ := ih net1 hdom1 hs1
    refine ⟨net2, ?_, ?_⟩
    · have hcomb : (adj.foldlM (fun net (q : Nat × Int) =>
          match dlookup net b with
          | none => Res.err
          | some row =>
            match dlookup row q.1 with
            | none => Res.err
            | some ar =>
              Res.ok (dset net b (dset row q.1 ⟨ar.cap, ar.flow + q.2⟩))) net)
          >>= (fun nn => rest.foldlM (fun net (p : Nat × Dict Int) =>
            p.2.foldlM (fun net (q : Nat × Int) =>
              match dlookup net p.1 with
              | none => Res.err
              | some row =>
                match dlookup row q.1 with
                | none => Res.err
                | some ar =>
                  Res.ok (dset net p.1 (dset row q.1 ⟨ar.cap, ar.flow + q.2⟩)))
              net) nn) = Res.ok net2 := by
        rw [hfold1, res_bind_ok]
        exact hfold2
      exact hcomb
    · intro u v
      rw [hchar2, hchar1]
      by_cases hu : u = b
      · rw [if_pos hu]
        have hn : dlookup rest u = none := by
          rw [hu]
          exact dlookup_none_of_lt (fun p hp => hblt p hp)
        have hz : gval rest u v = 0 := by
          simp [gval, dgetD, hn, dlookup]
        have hg : gval ((b, adj) :: rest) u v = dgetD adj v 0 := by
          rw [hu]
          simp [gval, dgetD, dlookup]
        rw [hz, hg]
        cases ho : arcLookup net u v with
        | none => rfl
        | some ar => simp
      · rw [if_neg hu]
        have hg : gval ((b, adj) :: rest) u v = gval rest u v := by
          simp [gval, dgetD, dlookup, hu]
        rw [hg]



/-- C9: for every sorted network, every delta map a successful blocking-flow
phase produces records only key pairs `(u, v)` that are arcs of the original
network (`gdomOK`), so `flow_add`'s indexing `network[u][v]` is always
defined: the merge succeeds and updates every arc's flow by exactly the
accumulated signed delta `gval g u v`, netting forward assignment against
backward cancellation on the original arc. -/
theorem delta_map_keys_are_arcs {net : Net} {f1 f2 source sink : Nat}
    {na : Graph} {g : DeltaMap}
    (hs : dsorted2 net)
    (hbl : build_level_graph f1 source sink net = .ok (some na))
    (hcbf : construct_blocking_flow f2 source sink na [] = .ok g) :
    gdomOK net g ∧
      ∃ net', flow_add net g = .ok net' ∧
        ∀ u v, arcLookup net' u v =
          (arcLookup net u v).map
            (fun a => ⟨a.cap, a.flow + gval g u v⟩) := by
  have hI0 : INV net na [] := build_level_graph_INV hs hbl
  obtain ⟨a, hI⟩ := construct_blocking_flow_inv hcbf hI0
  exact ⟨hI.2.1, flow_add_char g net hI.2.1 hI.2.2⟩

/-- Witness for C9 on scenario A's first (and only) phase. -/
theorem delta_map_keys_are_arcs_witness :
    dsorted2 netA ∧
      build_level_graph 30 0 4 netA = .ok (some auxA9) ∧
      construct_blocking_flow 30 0 4 auxA9 [] = .ok gA9 ∧
      (gdomOK netA gA9 ∧
        ∃ net', flow_add netA gA9 = .ok net' ∧
          ∀ u v, arcLookup net' u v =
            (arcLookup netA u v).map
              (fun a => ⟨a.cap, a.flow + gval gA9 u v⟩)) :=
  ⟨by decide, by decide, by decide,
    @delta_map_keys_are_arcs netA 30 30 0 4 auxA9 gA9
      (by decide) (by decide) (by decide)⟩

/-! ## C7 machinery: the layering of the auxiliary network -/

theorem dmem_of_lookup {α : Type} {d : Dict α} {k : Nat} {v : α}
    (h : dlookup d k = some v) : dmem d k = true := by
  unfold dmem
  rw [h]
  rfl

theorem dmem_delete_node_self (x : Nat) (g : Graph) :
    dmem (delete_node x g) x = false := by
  cases g with
  | nil => rfl
  | cons p rest =>
    show dmem ((derase (p :: rest) x).map (fun q => (q.1, derase q.2 x))) x
      = false
    unfold dmem
    rw [dlookup_map_val (derase (p :: rest) x) (fun _ v => derase v x),
      dlookup_derase]
    simp

theorem dmem_delete_node_sub {x : Nat} {g : Graph} {u : Nat}
    (h : dmem (delete_node x g) u = true) : dmem g u = true := by
  cases g with
  | nil => simp [delete_node, dmem, dlookup] at h
  | cons p rest =>
    unfold dmem at h ⊢
    have hdn : delete_node x (p :: rest) =
        (derase (p :: rest) x).map (fun q => (q.1, derase q.2 x)) := rfl
    rw [hdn, dlookup_map_val (derase (p :: rest) x) (fun _ v => derase v x),
      dlookup_derase] at h
    by_cases hux : u = x
    · rw [if_pos hux] at h
      simp at h
    · rw [if_neg hux] at h
      cases ho : dlookup (p :: rest) u with
      | none => rw [ho] at h; simp at h
      | some adj => rfl

theorem baTrunc_dmem_sub (sink : Nat) :
    ∀ (doomed : List Nat) (na : Graph) (c : Bool) (u : Nat),
      dmem (baTrunc sink doomed na c).1 u = true → dmem na u = true := by
  intro doomed
  induction doomed with
  | nil => intro na c u h; exact h
  | cons node rest ih =>
    intro na c u h
    simp only [baTrunc] at h
    by_cases hs : node = sink
    · rw [if_pos hs] at h
      exact ih _ _ _ h
    · rw [if_neg hs] at h
      exact dmem_delete_node_sub (ih _ _ _ h)

theorem baTrunc_doomed_gone (sink : Nat) :
    ∀ (doomed : List Nat) (na : Graph) (c : Bool) (u : Nat),
      u ∈ doomed → u ≠ sink →
      dmem (baTrunc sink doomed na c).1 u = false := by
  intro doomed
  induction doomed with
  | nil => intro na c u h _; simp at h
  | cons node rest ih =>
    intro na c u h hus
    simp only [baTrunc]
    rcases List.mem_cons.mp h with he | hrest
    · subst he
      rw [if_neg hus]
      cases hb : dmem (baTrunc sink rest (delete_node u na) c).1 u with
      | false => rfl
      | true =>
        have hsub := baTrunc_dmem_sub sink rest (delete_node u na) c u hb
        rw [dmem_delete_node_self] at hsub
        exact Bool.noConfusion hsub
    · by_cases hs : node = sink
      · rw [if_pos hs]
        exact ih _ _ _ hrest hus
      · rw [if_neg hs]
        exact ih _ _ _ hrest hus

theorem baTrunc_c_true (sink : Nat) :
    ∀ (doomed : List Nat) (na : Graph),
      (baTrunc sink doomed na true).2 = true := by
  intro doomed
  induction doomed with
  | nil => intro na; rfl
  | cons node rest ih =>
    intro na
    simp only [baTrunc]
    by_cases hs : node = sink
    · rw [if_pos hs]
      exact ih _
    · rw [if_neg hs]
      exact ih _

theorem baTrunc_complete (sink : Nat) :
    ∀ (doomed : List Nat) (na : Graph) (c : Bool),
      sink ∈ doomed → (baTrunc sink doomed na c).2 = true := by
  intro doomed
  induction doomed with
  | nil => intro na c h; simp at h
  | cons node rest ih =>
    intro na c h
    simp only [baTrunc]
    rcases List.mem_cons.mp h with he | hrest
    · rw [if_pos he.symm]
      exact baTrunc_c_true sink rest na
    · by_cases hs : node = sink
      · rw [if_pos hs]
        exact baTrunc_c_true sink rest na
      · rw [if_neg hs]
        exact ih _ _ hrest

theorem baTrunc_edge_sub (sink : Nat) :
    ∀ (doomed : List Nat) (na : Graph) (c : Bool) (u v : Nat) (e : REdge),
      edgeIn (baTrunc sink doomed na c).1 u v = some e →
      edgeIn na u v = some e := by
  intro doomed
  induction doomed with
  | nil => intro na c u v e h; exact h
  | cons node rest ih =>
    intro na c u v e h
    simp only [baTrunc] at h
    by_cases hs : node = sink
    · rw [if_pos hs] at h
      exact ih _ _ _ _ _ h
    · rw [if_neg hs] at h
      exact edgeIn_delete_node (ih _ _ _ _ _ h)

theorem baEdge_binv {sink now : Nat} {lv : Int} (e : Nat) (ed : REdge)
    {st : Graph × Dict Int × List Nat × List Nat}
    (hL : layerInv sink st.1 st.2.1) (hN : nodesInVl st.1 st.2.1)
    (hnow : now ≠ sink → dlookup st.2.1 now = some lv)
    (hmem : dmem st.2.1 now = true) :
    layerInv sink (baEdge sink now lv e ed st).1
        (baEdge sink now lv e ed st).2.1 ∧
      nodesInVl (baEdge sink now lv e ed st).1
        (baEdge sink now lv e ed st).2.1 ∧
      (now ≠ sink → dlookup (baEdge sink now lv e ed st).2.1 now = some lv) ∧
      dmem (baEdge sink now lv e ed st).2.1 now = true := by
  obtain ⟨na, vl, que, visited⟩ := st
  simp only [baEdge]
  by_cases hc : dmem vl e = true ∧ e ≠ sink
  · rw [if_pos hc]
    exact ⟨hL, hN, hnow, hmem⟩
  · rw [if_neg hc]
    refine ⟨?_, ?_, ?_, ?_⟩
    · intro u v hu hv he
      rw [edgeIn_setEdge] at he
      by_cases huv : u = now ∧ v = e
      · obtain ⟨hu1, hv1⟩ := huv
        subst hu1
        subst hv1
        have hlu : dlookup vl u = some lv := hnow hu
        have hune : u ≠ v := by
          intro hh
          exact hc ⟨by rw [← hh]; exact dmem_of_lookup hlu, by rw [← hh]; exact hu⟩
        refine ⟨lv, ?_, ?_⟩
        · rw [dlookup_dset, if_neg hune]
          exact hlu
        · rw [dlookup_dset, if_pos rfl]
      · rw [if_neg huv] at he
        obtain ⟨lu, hlu, hlv⟩ := hL u v hu hv he
        have hue : u ≠ e := by
          intro hh
          exact hc ⟨by rw [← hh]; exact dmem_of_lookup hlu, by rw [← hh]; exact hu⟩
        have hve : v ≠ e := by
          intro hh
          exact hc ⟨by rw [← hh]; exact dmem_of_lookup hlv, by rw [← hh]; exact hv⟩
        exact ⟨lu, by rw [dlookup_dset, if_neg hue]; exact hlu,
          by rw [dlookup_dset, if_neg hve]; exact hlv⟩
    · intro u hu
      unfold setEdge at hu
      rw [dmem_dset] at hu
      rw [dmem_dset]
      rcases hu with h1 | h2
      · right
        rw [h1]
        exact hmem
      · right
        exact hN u h2
    · intro hns
      have hne : now ≠ e := by
        intro hh
        exact hc ⟨by rw [← hh]; exact hmem, by rw [← hh]; exact hns⟩
      rw [dlookup_dset, if_neg hne]
      exact hnow hns
    · rw [dmem_dset]
      exact Or.inr hmem

theorem baFold_binv (sink now : Nat) (lv : Int) :
    ∀ (adj : Dict REdge) (st : Graph × Dict Int × List Nat × List Nat),
      layerInv sink st.1 st.2.1 → nodesInVl st.1 st.2.1 →
      (now ≠ sink → dlookup st.2.1 now = some lv) →
      dmem st.2.1 now = true →
      layerInv sink
          (adj.foldl (fun st (p : Nat × REdge) =>
            baEdge sink now lv p.1 p.2 st) st).1
          (adj.foldl (fun st (p : Nat × REdge) =>
            baEdge sink now lv p.1 p.2 st) st).2.1 ∧
        nodesInVl
          (adj.foldl (fun st (p : Nat × REdge) =>
            baEdge sink now lv p.1 p.2 st) st).1
          (adj.foldl (fun st (p : Nat × REdge) =>
            baEdge sink now lv p.1 p.2 st) st).2.1 := by
  intro adj
  induction adj with
  | nil => intro st hL hN _ _; exact ⟨hL, hN⟩
  | cons q rest ih =>
    intro st hL hN hnow hmem
    simp only [List.foldl_cons]
    have hstep := baEdge_binv q.1 q.2 hL hN hnow hmem
    exact ih _ hstep.1 hstep.2.1 hstep.2.2.1 hstep.2.2.2

theorem baLoop_binv {nr : Graph} {sink : Nat} :
    ∀ (fuel : Nat) (que : List Nat) (vl : Dict Int) (visited : List Nat)
      (na na' : Graph) (vl' : Dict Int),
      baLoop nr sink fuel que vl visited na = .ok (na', vl') →
      layerInv sink na vl → nodesInVl na vl →
      layerInv sink na' vl' ∧ nodesInVl na' vl' := by
  intro fuel
  induction fuel with
  | zero => intro que vl visited na na' vl' h _ _; exact Res.noConfusion h
  | succ n ih =>
    intro que vl visited na na' vl' h hL hN
    cases que with
    | nil =>
      simp only [baLoop] at h
      injection h with h2
      injection h2 with ha hv
      rw [← ha, ← hv]
      exact ⟨hL, hN⟩
    | cons now rest =>
      simp only [baLoop] at h
      cases hnow : dlookup nr now with
      | none => simp only [hnow] at h; exact Res.noConfusion h
      | some adj =>
        simp only [hnow] at h
        cases hlv : dlookup vl now with
        | none => simp only [hlv] at h; exact Res.noConfusion h
        | some lv =>
          simp only [hlv] at h
          have hL1 : layerInv sink (dset na now []) vl := by
            intro u v hu hv he
            rw [edgeIn_dset_empty] at he
            by_cases hun : u = now
            · rw [if_pos hun] at he
              simp at he
            · rw [if_neg hun] at he
              exact hL u v hu hv he
          have hN1 : nodesInVl (dset na now []) vl := by
            intro u hu
            rw [dmem_dset] at hu
            rcases hu with h1 | h2
            · rw [h1]
              exact dmem_of_lookup hlv
            · exact hN u h2
          cases hfe : adj.foldl
              (fun st (p : Nat × REdge) => baEdge sink now lv p.1 p.2 st)
              (dset na now [], vl, rest, visited) with
          | mk na1 pr =>
            obtain ⟨vl1, que1, vis1⟩ := pr
            rw [hfe] at h
            have hfold := baFold_binv sink now lv adj
              (dset na now [], vl, rest, visited) hL1 hN1
              (fun _ => hlv) (dmem_of_lookup hlv)
            rw [hfe] at hfold
            exact ih _ _ _ _ _ _ h hfold.1 hfold.2


/-- C7 (amended): for every successful `build_auxiliary` run, every retained
edge between two non-sink nodes joins consecutive recorded layers
(`layer v = layer u + 1`), and after truncation every remaining node other
than the sink has a recorded layer strictly below the sink's final layer.
Edges whose tail or head is the sink are exempt: the sink's layer is
re-assigned by every later edge into it, which is why the graph need not be
a DAG (see the cycle counterexample). -/
theorem auxiliary_layering {nr : Graph} {fuel source sink : Nat}
    {na : Graph} {vl : Dict Int}
    (h : build_auxiliary_vl fuel source sink nr = .ok (some (na, vl))) :
    (∀ u v, u ≠ sink → v ≠ sink → (edgeIn na u v).isSome = true →
      ∃ lu, dlookup vl u = some lu ∧ dlookup vl v = some (lu + 1)) ∧
    ∀ sl, dlookup vl sink = some sl →
      ∀ u, u ≠ sink → dmem na u = true →
        ∃ lu, dlookup vl u = some lu ∧ lu < sl := by
  simp only [build_auxiliary_vl] at h
  obtain ⟨⟨na0, vl0⟩, hba, h2⟩ := res_ok_of_bind_ok h
  simp only at h2
  have hbinv : layerInv sink na0 vl0 ∧ nodesInVl na0 vl0 := by
    refine baLoop_binv _ _ _ _ _ _ _ hba ?_ ?_
    · intro u v _ _ he
      simp [edgeIn, dlookup] at he
    · intro u hu
      simp [dmem, dlookup] at hu
  by_cases hdm : ¬ dmem na0 sink = true
  · rw [if_pos hdm] at h2
    have h3 : Res.ok (none : Option (Graph × Dict Int)) =
        Res.ok (some (na, vl)) := h2
    injection h3 with h4
    exact Option.noConfusion h4
  · rw [if_neg hdm] at h2
    cases hsl : dlookup vl0 sink with
    | none => simp only [hsl] at h2; exact Res.noConfusion h2
    | some sink_level =>
      simp only [hsl] at h2
      cases htr : baTrunc sink
          ((vl0.filter (fun p => p.2 ≥ sink_level)).map Prod.fst) na0 false with
      | mk na1 complete =>
        simp only [htr] at h2
        by_cases hcp : complete = true
        · rw [if_pos hcp] at h2
          have h3 : Res.ok (some (na1, vl0)) = Res.ok (some (na, vl)) := h2
          injection h3 with h4
          injection h4 with h5
          injection h5 with ha hv
          rw [← ha, ← hv]
          constructor
          · intro u v hu hv2 he
            cases heo : edgeIn na1 u v with
            | none => rw [heo] at he; simp at he
            | some e =>
              have he0 : edgeIn na0 u v = some e := by
                have := baTrunc_edge_sub sink
                  ((vl0.filter (fun p => p.2 ≥ sink_level)).map Prod.fst)
                  na0 false u v e
                rw [htr] at this
                exact this heo
              exact hbinv.1 u v hu hv2 (by rw [he0]; rfl)
          · intro sl hslv u hu hmem1
            have hsl2 : sink_level = sl := by
              rw [hslv] at hsl
              injection hsl with hx
              exact hx.symm
            subst hsl2
            have hmem0 : dmem na0 u = true := by
              have := baTrunc_dmem_sub sink
                ((vl0.filter (fun p => p.2 ≥ sink_level)).map Prod.fst)
                na0 false u
              rw [htr] at this
              exact this hmem1
            have hvl : dmem vl0 u = true := hbinv.2 u hmem0
            cases hlu : dlookup vl0 u with
            | none => rw [dmem, hlu] at hvl; exact Bool.noConfusion hvl
            | some lu =>
              refine ⟨lu, rfl, ?_⟩
              by_contra hge
              have hdoomed : u ∈ (vl0.filter
                  (fun p => p.2 ≥ sink_level)).map Prod.fst := by
                refine List.mem_map.mpr ⟨(u, lu), ?_, rfl⟩
                refine List.mem_filter.mpr ⟨dlookup_mem hlu, ?_⟩
                simp
                omega
              have hgone := baTrunc_doomed_gone sink
                ((vl0.filter (fun p => p.2 ≥ sink_level)).map Prod.fst)
                na0 false u hdoomed hu
              rw [htr] at hgone
              rw [hgone] at hmem1
              exact Bool.noConfusion hmem1
        · rw [if_neg hcp] at h2
          have h3 : Res.ok (none : Option (Graph × Dict Int)) =
              Res.ok (some (na, vl)) := h2
          injection h3 with h4
          exact Option.noConfusion h4

/-- Witness for C7's amended layering on scenario A's auxiliary build. -/
theorem auxiliary_layering_witness :
    build_auxiliary_vl 20 0 4
        [(0, [(1, ⟨5, Dir.F, false⟩), (2, ⟨100, Dir.F, false⟩)]),
         (1, [(4, ⟨3, Dir.F, false⟩)]), (2, []), (4, [])]
      = .ok (some (auxA9, [(0, 0), (1, 1), (2, 1), (4, 2)])) ∧
    ((∀ u v, u ≠ 4 → v ≠ 4 → (edgeIn auxA9 u v).isSome = true →
      ∃ lu, dlookup ([(0, 0), (1, 1), (2, 1), (4, 2)] : Dict Int) u = some lu ∧
        dlookup ([(0, 0), (1, 1), (2, 1), (4, 2)] : Dict Int) v = some (lu + 1)) ∧
    ∀ sl, dlookup ([(0, 0), (1, 1), (2, 1), (4, 2)] : Dict Int) 4 = some sl →
      ∀ u, u ≠ 4 → dmem auxA9 u = true →
        ∃ lu, dlookup ([(0, 0), (1, 1), (2, 1), (4, 2)] : Dict Int) u = some lu ∧
          lu < sl) :=
  ⟨by decide,
    @auxiliary_layering
      [(0, [(1, ⟨5, Dir.F, false⟩), (2, ⟨100, Dir.F, false⟩)]),
       (1, [(4, ⟨3, Dir.F, false⟩)]), (2, []), (4, [])]
      20 0 4 auxA9 [(0, 0), (1, 1), (2, 1), (4, 2)] (by decide)⟩

/-! ## C5 machinery: an unreachable sink stops the driver before any phase -/

theorem isArcPath_snoc {net : Net} :
    ∀ {l : List Nat} {s u v : Nat}, isArcPath net s u l →
      netSucc net u v = true → isArcPath net s v (l ++ [v]) := by
  intro l
  induction l with
  | nil =>
    intro s u v h hs
    exact ⟨by rw [h]; exact hs, rfl⟩
  | cons w rest ih =>
    intro s u v h hs
    obtain ⟨h1, h2⟩ := h
    exact ⟨h1, ih h2 hs⟩

theorem netSucc_of_arc {net : Net} {u v : Nat}
    (h : (arcLookup net u v).isSome = true) : netSucc net u v = true := by
  cases hr : dlookup net u with
  | none => simp only [arcLookup, hr] at h; simp at h
  | some row =>
    simp only [arcLookup, hr] at h
    simp only [netSucc, dmem, dgetD, hr, Option.getD_some]
    exact h

theorem fwdOnly_dset_empty {g : Graph} (k : Nat)
    (hf : fwdOnly g) : fwdOnly (dset g k []) := by
  intro p hp q hq
  rcases mem_dset hp with h1 | h2
  · rw [h1] at hq
    simp at hq
  · exact hf p h2 q hq

theorem fwdOnly_setEdge {g : Graph} (x y : Nat) (cp : Int) (b : Bool)
    (hf : fwdOnly g) : fwdOnly (setEdge g x y ⟨cp, Dir.F, b⟩) := by
  intro p hp q hq
  unfold setEdge at hp
  rcases mem_dset hp with h1 | h2
  · rw [h1] at hq
    rcases mem_dset hq with h3 | h4
    · rw [h3]
    · cases hrow : dlookup g x with
      | none =>
        rw [show dgetD g x [] = [] from by simp [dgetD, hrow]] at h4
        simp at h4
      | some row =>
        rw [show dgetD g x [] = row from by simp [dgetD, hrow]] at h4
        exact hf (x, row) (dlookup_mem hrow) q h4
  · exact hf p h2 q hq

theorem fwdOnly_dset_if {g : Graph} (k : Nat) (c : Prop) [Decidable c]
    (hf : fwdOnly g) : fwdOnly (if c then g else dset g k []) := by
  by_cases h : c
  · rw [if_pos h]; exact hf
  · rw [if_neg h]; exact fwdOnly_dset_empty k hf

theorem fwdOnly_setEdge_if {g : Graph} (x y : Nat) (cp : Int) (b : Bool)
    (c : Prop) [Decidable c] (hf : fwdOnly g) :
    fwdOnly (if c then setEdge g x y ⟨cp, Dir.F, b⟩ else g) := by
  by_cases h : c
  · rw [if_pos h]; exact fwdOnly_setEdge x y cp b hf
  · rw [if_neg h]; exact hf

theorem fwdOnly_setEdge_B_if {g : Graph} (x y : Nat) (cp : Int) (c : Prop)
    [Decidable c] (hc : ¬ c) (hf : fwdOnly g) :
    fwdOnly (if c then setEdge g x y ⟨cp, Dir.B, false⟩ else g) := by
  rw [if_neg hc]
  exact hf

theorem brEdge_fwd {now e : Nat} {a : Arc} {st : Graph × List Nat × List Nat}
    (ha : a.flow = 0) (hf : fwdOnly st.1) : fwdOnly (brEdge now e a st).1 := by
  obtain ⟨nr, que, visited⟩ := st
  exact fwdOnly_setEdge_B_if e now a.flow _ (by omega)
    (fwdOnly_setEdge_if now e (a.cap - a.flow) false _
      (fwdOnly_dset_if e _ (fwdOnly_dset_if now _ hf)))

theorem brFold_fwd (now : Nat) :
    ∀ (adj : Dict Arc) (st : Graph × List Nat × List Nat),
      (∀ p ∈ adj, p.2.flow = 0) → fwdOnly st.1 →
      fwdOnly
        (adj.foldl (fun st (p : Nat × Arc) => brEdge now p.1 p.2 st) st).1 := by
  intro adj
  induction adj with
  | nil => intro st _ hf; exact hf
  | cons q rest ih =>
    intro st hz hf
    simp only [List.foldl_cons]
    exact ih _ (fun p hp => hz p (List.mem_cons_of_mem _ hp))
      (brEdge_fwd (hz q (List.mem_cons_self _ _)) hf)

theorem brLoop_fwd {net : Net} {sink : Nat} (hz : zeroFlows net) :
    ∀ (fuel : Nat) (que visited : List Nat) (nr nr' : Graph),
      brLoop net sink fuel que visited nr = .ok nr' →
      fwdOnly nr → fwdOnly nr' := by
  intro fuel
  induction fuel with
  | zero => intro que visited nr nr' h _; exact Res.noConfusion h
  | succ n ih =>
    intro que visited nr nr' h hf
    cases que with
    | nil =>
      simp only [brLoop] at h
      injection h with h2
      rw [← h2]
      exact hf
    | cons now rest =>
      simp only [brLoop] at h
      cases hnow : dlookup net now with
      | none => simp only [hnow] at h; exact Res.noConfusion h
      | some adj =>
        simp only [hnow] at h
        cases hfe : adj.foldl
            (fun st (p : Nat × Arc) => brEdge now p.1 p.2 st)
            (nr, rest, visited) with
        | mk nr1 pr =>
          obtain ⟨que1, vis1⟩ := pr
          rw [hfe] at h
          have hfold := brFold_fwd now adj (nr, rest, visited)
            (fun p hp => hz (now, adj) (dlookup_mem hnow) p hp) hf
          rw [hfe] at hfold
          exact ih _ _ _ _ h hfold

theorem baEdge_sound {net : Net} {source now : Nat} (sink : Nat) (lv : Int)
    (e : Nat) (ed : REdge) {st : Graph × Dict Int × List Nat × List Nat}
    (hsucc : netSucc net now e = true)
    (hnowp : ∃ l, isArcPath net source now l)
    (hq : ∀ k ∈ st.2.2.1, ∃ l, isArcPath net source k l)
    (hv : ∀ p ∈ st.2.1, ∃ l, isArcPath net source p.1 l) :
    (∀ k ∈ (baEdge sink now lv e ed st).2.2.1,
      ∃ l, isArcPath net source k l) ∧
    ∀ p ∈ (baEdge sink now lv e ed st).2.1,
      ∃ l, isArcPath net source p.1 l := by
  obtain ⟨na, vl, que, visited⟩ := st
  simp only [baEdge]
  by_cases hc : dmem vl e = true ∧ e ≠ sink
  · rw [if_pos hc]
    exact ⟨hq, hv⟩
  · rw [if_neg hc]
    have hep : ∃ l, isArcPath net source e l := by
      obtain ⟨l, hl⟩ := hnowp
      exact ⟨l ++ [e], isArcPath_snoc hl hsucc⟩
    constructor
    · intro k hk
      by_cases hvis : visited.contains e = true
      · rw [if_pos hvis] at hk
        exact hq k hk
      · rw [if_neg hvis] at hk
        rcases List.mem_append.mp hk with h1 | h2
        · exact hq k h1
        · rw [List.mem_singleton.mp h2]
          exact hep
    · intro p hp
      rcases mem_dset hp with h1 | h2
      · rw [h1]
        exact hep
      · exact hv p h2

theorem baFold_sound {net : Net} {source now : Nat} (sink : Nat) (lv : Int)
    (hnowp : ∃ l, isArcPath net source now l) :
    ∀ (adj : Dict REdge) (st : Graph × Dict Int × List Nat × List Nat),
      (∀ p ∈ adj, netSucc net now p.1 = true) →
      (∀ k ∈ st.2.2.1, ∃ l, isArcPath net source k l) →
      (∀ p ∈ st.2.1, ∃ l, isArcPath net source p.1 l) →
      (∀ k ∈ (adj.foldl (fun st (p : Nat × REdge) =>
          baEdge sink now lv p.1 p.2 st) st).2.2.1,
        ∃ l, isArcPath net source k l) ∧
      ∀ p ∈ (adj.foldl (fun st (p : Nat × REdge) =>
          baEdge sink now lv p.1 p.2 st) st).2.1,
        ∃ l, isArcPath net source p.1 l := by
  intro adj
  induction adj with
  | nil => intro st _ hq hv; exact ⟨hq, hv⟩
  | cons q rest ih =>
    intro st hsc hq hv
    simp only [List.foldl_cons]
    have hstep := baEdge_sound sink lv q.1 q.2 (hsc q (List.mem_cons_self _ _))
      hnowp hq hv
    exact ih _ (fun p hp => hsc p (List.mem_cons_of_mem _ hp))
      hstep.1 hstep.2

theorem baLoop_sound {net : Net} {nr : Graph} {source sink : Nat}
    (hfwd : fwdOnly nr) (hsr : dsorted2 nr) (hok : auxEdgesOK net nr) :
    ∀ (fuel : Nat) (que : List Nat) (vl : Dict Int) (visited : List Nat)
      (na na' : Graph) (vl' : Dict Int),
      baLoop nr sink fuel que vl visited na = .ok (na', vl') →
      (∀ k ∈ que, ∃ l, isArcPath net source k l) →
      (∀ p ∈ vl, ∃ l, isArcPath net source p.1 l) →
      ∀ p ∈ vl', ∃ l, isArcPath net source p.1 l := by
  intro fuel
  induction fuel with
  | zero => intro que vl visited na na' vl' h _ _; exact Res.noConfusion h
  | succ n ih =>
    intro que vl visited na na' vl' h hq hv
    cases que with
    | nil =>
      simp only [baLoop] at h
      injection h with h2
      injection h2 with _ hvq
      rw [← hvq]
      exact hv
    | cons now rest =>
      simp only [baLoop] at h
      cases hnow : dlookup nr now with
      | none => simp only [hnow] at h; exact Res.noConfusion h
      | some adj =>
        simp only [hnow] at h
        cases hlv : dlookup vl now with
        | none => simp only [hlv] at h; exact Res.noConfusion h
        | some lv =>
          simp only [hlv] at h
          have hsc : ∀ p ∈ adj, netSucc net now p.1 = true := by
            intro p hp
            have hsa : dsorted adj := hsr.2 _ (dlookup_mem hnow)
            have he : edgeIn nr now p.1 = some p.2 := by
              simp only [edgeIn, hnow]
              exact mem_dlookup hsa hp
            have hdir : p.2.dir = Dir.F :=
              hfwd (now, adj) (dlookup_mem hnow) p hp
            exact netSucc_of_arc ((hok _ _ _ he).2.1 hdir)
          cases hfe : adj.foldl
              (fun st (p : Nat × REdge) => baEdge sink now lv p.1 p.2 st)
              (dset na now [], vl, rest, visited) with
          | mk na1 pr =>
            obtain ⟨vl1, que1, vis1⟩ := pr
            rw [hfe] at h
            have hfold := baFold_sound sink lv
              (hq now (List.mem_cons_self _ _)) adj
              (dset na now [], vl, rest, visited) hsc
              (fun k hk => hq k (List.mem_cons_of_mem _ hk)) hv
            rw [hfe] at hfold
            exact ih _ _ _ _ _ _ h hfold.1 hfold.2

theorem build_level_graph_some_reach {net : Net} {fuel source sink : Nat}
    {na : Graph} (hs : dsorted2 net) (hz : zeroFlows net)
    (h : build_level_graph fuel source sink net = .ok (some na)) :
    ∃ l, isArcPath net source sink l := by
  simp only [build_level_graph] at h
  obtain ⟨nr, hbr, h2⟩ := res_ok_of_bind_ok h
  have hinv := build_residual_graph_inv hs hbr
  have hfwd : fwdOnly nr := by
    refine brLoop_fwd hz _ _ _ _ _ hbr ?_
    intro p hp
    simp at hp
  simp only [build_auxiliary] at h2
  obtain ⟨ropt, hvl, h3⟩ := res_ok_of_bind_ok h2
  cases ropt with
  | none =>
    have h4 : Res.ok (none : Option Graph) = Res.ok (some na) := h3
    injection h4 with h5
    exact Option.noConfusion h5
  | some pr =>
    obtain ⟨na1, vl1⟩ := pr
    simp only [build_auxiliary_vl] at hvl
    obtain ⟨⟨na0, vl0⟩, hba, h4⟩ := res_ok_of_bind_ok hvl
    simp only at h4
    by_cases hdm : ¬ dmem na0 sink = true
    · rw [if_pos hdm] at h4
      have h5 : Res.ok (none : Option (Graph × Dict Int)) =
          Res.ok (some (na1, vl1)) := h4
      injection h5 with h6
      exact Option.noConfusion h6
    · have hsink : dmem na0 sink = true := Classical.not_not.mp hdm
      have hbinv : layerInv sink na0 vl0 ∧ nodesInVl na0 vl0 := by
        refine baLoop_binv _ _ _ _ _ _ _ hba ?_ ?_
        · intro u v _ _ he
          simp [edgeIn, dlookup] at he
        · intro u hu
          simp [dmem, dlookup] at hu
      have hvls : dmem vl0 sink = true := hbinv.2 sink hsink
      cases hsl : dlookup vl0 sink with
      | none => rw [dmem, hsl] at hvls; exact Bool.noConfusion hvls
      | some lvl =>
        have hmem : (sink, lvl) ∈ vl0 := dlookup_mem hsl
        refine baLoop_sound hfwd hinv.2 hinv.1 _ _ _ _ _ _ _ hba
          ?_ ?_ (sink, lvl) hmem
        · intro k hk
          rw [List.mem_singleton.mp hk]
          exact ⟨[], rfl⟩
        · intro p hp
          rcases List.mem_singleton.mp hp with h7
          rw [h7]
          exact ⟨[], rfl⟩

theorem foldl_flow_zero :
    ∀ (adj : Dict Arc) (acc : Int), (∀ q ∈ adj, q.2.flow = 0) →
      adj.foldl (fun acc (p : Nat × Arc) => acc + p.2.flow) acc = acc := by
  intro adj
  induction adj with
  | nil => intro acc _; rfl
  | cons q rest ih =>
    intro acc h
    simp only [List.foldl_cons]
    rw [h q (List.mem_cons_self _ _), Int.add_zero]
    exact ih _ (fun p hp => h p (List.mem_cons_of_mem _ hp))

/-- C5 (amended): on a sorted zero-flow network whose sink is unreachable
from the source by arcs, every successful `mpm` run returns the unchanged
network with value 0 after zero blocking-flow phases — so no push or pull is
ever performed.  (The original claim's unconditional form fails: when the
source has no incident residual edge, `build_auxiliary` raises `KeyError`
instead of returning `None`; see the crash counterexample.) -/
theorem no_path_no_phase {net : Net} {fuel source sink : Nat}
    {r : Net × Int × Nat}
    (hs : dsorted2 net) (hz : zeroFlows net)
    (hnp : ∀ l, ¬ isArcPath net source sink l)
    (h : mpm_count fuel source sink net = .ok r) :
    r = (net, 0, 0) := by
  simp only [mpm_count] at h
  obtain ⟨⟨net1, phases⟩, hloop, h2⟩ := res_ok_of_bind_ok h
  cases fuel with
  | zero => exact Res.noConfusion hloop
  | succ n =>
    simp only [mpmLoop] at hloop
    obtain ⟨obl, hbl, h3⟩ := res_ok_of_bind_ok hloop
    cases obl with
    | some na =>
      exfalso
      obtain ⟨l, hl⟩ := build_level_graph_some_reach hs hz hbl
      exact hnp l hl
    | none =>
      simp only at h3
      have h4 : Res.ok (net, 0) = Res.ok (net1, phases) := h3
      injection h4 with h5
      injection h5 with ha hb
      rw [← ha] at h2
      rw [← hb] at h2
      simp only at h2
      cases hsrc : dlookup net source with
      | none => simp only [hsrc] at h2; exact Res.noConfusion h2
      | some adj =>
        simp only [hsrc] at h2
        have h6 : Res.ok (net, adj.foldl
            (fun acc (p : Nat × Arc) => acc + p.2.flow) 0, (0 : Nat)) =
            Res.ok r := h2
        injection h6 with h7
        rw [← h7]
        have hzz : adj.foldl (fun acc (p : Nat × Arc) => acc + p.2.flow) 0
            = 0 :=
          foldl_flow_zero adj 0 (fun q hq => hz _ (dlookup_mem hsrc) _ hq)
        rw [hzz]

/-- Witness for C5's amended theorem on `netNoPath` (source 0, sink 2). -/
theorem no_path_no_phase_witness :
    dsorted2 netNoPath ∧ zeroFlows netNoPath ∧
      mpm_count 10 0 2 netNoPath = .ok (netNoPath, 0, 0) ∧
      ((netNoPath, 0, 0) : Net × Int × Nat) = (netNoPath, 0, 0) :=
  ⟨by decide, by decide, by decide,
    @no_path_no_phase netNoPath 10 0 2 (netNoPath, 0, 0) (by decide) (by decide)
      (by
        intro l
        cases l with
        | nil => intro hcon; simp [isArcPath] at hcon
        | cons v rest =>
          intro hcon
          obtain ⟨h1, h2⟩ := hcon
          have hv : v = 1 := by
            simp [netSucc, dgetD, dlookup, dmem, netNoPath] at h1
            exact h1
          rw [hv] at h2
          cases rest with
          | nil => simp [isArcPath] at h2
          | cons w r2 =>
            obtain ⟨h3, _⟩ := h2
            simp [netSucc, dgetD, dlookup, dmem, netNoPath] at h3)
      (by decide)⟩

/-! ## C8 machinery: pull agrees with the push mirror on forward-only
networks -/

theorem fwdOnly_setEdge_of_dir {g : Graph} {x y : Nat} {e : REdge}
    (hd : e.dir = Dir.F) (hf : fwdOnly g) : fwdOnly (setEdge g x y e) := by
  intro p hp q hq
  unfold setEdge at hp
  rcases mem_dset hp with h1 | h2
  · rw [h1] at hq
    rcases mem_dset hq with h3 | h4
    · rw [h3]
      exact hd
    · cases hrow : dlookup g x with
      | none =>
        rw [show dgetD g x [] = [] from by simp [dgetD, hrow]] at h4
        simp at h4
      | some row =>
        rw [show dgetD g x [] = row from by simp [dgetD, hrow]] at h4
        exact hf (x, row) (dlookup_mem hrow) q h4
  · exact hf p h2 q hq

theorem keysSub_setEdge {g : Graph} {thr : Thr} {u v : Nat} {e : REdge}
    (hk : keysSub g thr) (hu : dmem thr u = true) :
    keysSub (setEdge g u v e) thr := by
  intro p hp
  unfold setEdge at hp
  rcases mem_dset hp with h1 | h2
  · rw [h1]
    exact hu
  · exact hk p h2

theorem thrSubOut_fold_ok (m : Int) :
    ∀ (ns : List Nat) (thr : Thr),
      (∀ n ∈ ns, dmem thr n = true) →
      ∃ t', ns.foldlM (fun thr nn => thrSubOut thr nn m) thr = .ok t' ∧
        ∀ k, dmem t' k = dmem thr k := by
  intro ns
  induction ns with
  | nil => intro thr _; exact ⟨thr, rfl, fun _ => rfl⟩
  | cons n rest ih =>
    intro thr hmem
    have hn : dmem thr n = true := hmem n (List.mem_cons_self _ _)
    cases hio : dlookup thr n with
    | none => rw [dmem, hio] at hn; exact Bool.noConfusion hn
    | some io =>
      have hstep : thrSubOut thr n m = .ok (dset thr n (io.1, io.2 - m)) := by
        simp only [thrSubOut, hio]
      have hkeys : ∀ k, dmem (dset thr n (io.1, io.2 - m)) k = dmem thr k := by
        intro k
        by_cases hkn : k = n
        · rw [hkn, hn]
          unfold dmem
          rw [dlookup_dset, if_pos rfl]
          rfl
        · unfold dmem
          rw [dlookup_dset, if_neg hkn]
      obtain ⟨t', hfold, hk2⟩ := ih (dset thr n (io.1, io.2 - m))
        (fun q hq => by rw [hkeys q]; exact hmem q (List.mem_cons_of_mem _ hq))
      refine ⟨t', ?_, fun k => by rw [hk2 k, hkeys k]⟩
      have hcomb : (thrSubOut thr n m >>=
          fun t => rest.foldlM (fun thr nn => thrSubOut thr nn m) t)
          = .ok t' := by
        rw [hstep, res_bind_ok]
        exact hfold
      exact hcomb

theorem pmInner_of_pullInner :
    ∀ (us : List Nat) (v : Nat) (aux : Graph) (thr thr2 : Thr) (g : DeltaMap)
      (req : Dict Int) (que : List Nat) (v2 : Nat) (a : Graph) (t : Thr)
      (g' : DeltaMap) (req' : Dict Int) (que' : List Nat),
      pullInner us (v, aux, thr, g, req, que) = .ok (v2, a, t, g', req', que') →
      fwdOnly aux → keysSub aux thr2 →
      v2 = v ∧ fwdOnly a ∧
        ∃ t2, pmInner v us (aux, thr2, g, req, que) =
            .ok (a, t2, g', req', que') ∧ keysSub a t2 := by
  intro us
  induction us with
  | nil =>
    intro v aux thr thr2 g req que v2 a t g' req' que' h hf hk
    simp only [pullInner] at h
    injection h with h2
    injection h2 with hv h2
    injection h2 with ha h2
    injection h2 with _ h2
    injection h2 with hg h2
    injection h2 with hr hq
    subst hv; subst ha; subst hg; subst hr; subst hq
    exact ⟨rfl, hf, thr2, rfl, hk⟩
  | cons u rest ih =>
    intro v aux thr thr2 g req que v2 a t g' req' que' h hf hk
    simp only [pullInner] at h
    simp only [pmInner]
    cases hrv : dlookup req v with
    | none => simp only [hrv] at h; exact Res.noConfusion h
    | some rv =>
      simp only [hrv] at h ⊢
      by_cases hz : rv = 0
      · simp only [hz, if_pos rfl] at h ⊢
        injection h with h2
        injection h2 with hv h2
        injection h2 with ha h2
        injection h2 with _ h2
        injection h2 with hg h2
        injection h2 with hr hq
        subst hv; subst ha; subst hg; subst hr; subst hq
        exact ⟨rfl, hf, thr2, rfl, hk⟩
      · simp only [if_neg hz] at h ⊢
        cases hau : dlookup aux u with
        | none => simp only [hau] at h; exact Res.noConfusion h
        | some adj =>
          simp only [hau] at h ⊢
          cases hav : dlookup adj v with
          | none =>
            simp only [hav] at h ⊢
            exact ih _ _ _ _ _ _ _ _ _ _ _ _ _ h hf hk
          | some e =>
            simp only [hav] at h ⊢
            have hdf : e.dir = Dir.F :=
              hf (u, adj) (dlookup_mem hau) (v, e) (dlookup_mem hav)
            have hdb : ¬ (e.dir = Dir.B) := by
              intro hc
              rw [hdf] at hc
              exact Dir.noConfusion hc
            have hku : dmem thr2 u = true := hk (u, adj) (dlookup_mem hau)
            by_cases hu : e.used
            · simp only [if_pos hu] at h ⊢
              exact ih _ _ _ _ _ _ _ _ _ _ _ _ _ h hf hk
            · simp only [if_neg hu] at h ⊢
              have hf2 : fwdOnly (setEdge (setEdge aux u v
                  ⟨e.cap - min e.cap rv, e.dir, e.used⟩) u v
                  ⟨e.cap - min e.cap rv, e.dir, true⟩) :=
                fwdOnly_setEdge_of_dir hdf
                  (fwdOnly_setEdge_of_dir hdf hf)
              have hf1 : fwdOnly (setEdge aux u v
                  ⟨e.cap - min e.cap rv, e.dir, e.used⟩) :=
                fwdOnly_setEdge_of_dir hdf hf
              have hk2 : keysSub (setEdge (setEdge aux u v
                  ⟨e.cap - min e.cap rv, e.dir, e.used⟩) u v
                  ⟨e.cap - min e.cap rv, e.dir, true⟩) thr2 :=
                keysSub_setEdge (keysSub_setEdge hk hku) hku
              have hk1 : keysSub (setEdge aux u v
                  ⟨e.cap - min e.cap rv, e.dir, e.used⟩) thr2 :=
                keysSub_setEdge hk hku
              by_cases hnc : e.cap - min e.cap rv = 0
              · rw [if_pos hnc] at h
                rw [if_pos hnc]
                obtain ⟨t3, _, h2⟩ := res_ok_of_bind_ok h
                obtain ⟨t4, _, h3⟩ := res_ok_of_bind_ok h2
                rw [res_pure_bind] at h3
                simp only at h3
                obtain ⟨t5, hfold, hkeq⟩ := thrSubOut_fold_ok (min e.cap rv)
                  (((setEdge (setEdge aux u v
                    ⟨e.cap - min e.cap rv, e.dir, e.used⟩) u v
                    ⟨e.cap - min e.cap rv, e.dir, true⟩).filter
                      (fun p => dmem p.2 v)).map Prod.fst) thr2
                  (by
                    intro n hn
                    obtain ⟨p, hp, hpn⟩ := List.mem_map.mp hn
                    rw [← hpn]
                    exact hk2 p (List.mem_of_mem_filter hp))
                rw [hfold, res_bind_ok, res_pure_bind]
                simp only
                cases hreqn : dlookup (dset req v (rv - min e.cap rv)) u with
                | none => simp only [hreqn] at h3; exact Res.noConfusion h3
                | some ru =>
                  simp only [hreqn] at h3 ⊢
                  rw [if_neg hdb, if_neg hdb] at h3
                  rw [if_neg hdb]
                  have hks : keysSub (setEdge (setEdge aux u v
                      ⟨e.cap - min e.cap rv, e.dir, e.used⟩) u v
                      ⟨e.cap - min e.cap rv, e.dir, true⟩) t5 := by
                    intro p hp
                    rw [hkeq p.1]
                    exact hk2 p hp
                  obtain ⟨hveq, hfa, t6, hpm, hka⟩ :=
                    ih _ _ _ t5 _ _ _ _ _ _ _ _ _ h3 hf2 hks
                  exact ⟨hveq, hfa, t6, hpm, hka⟩
              · rw [if_neg hnc] at h
                rw [if_neg hnc]
                rw [res_pure_bind] at h
                rw [res_pure_bind]
                simp only at h ⊢
                cases hreqn : dlookup (dset req v (rv - min e.cap rv)) u with
                | none => simp only [hreqn] at h; exact Res.noConfusion h
                | some ru =>
                  simp only [hreqn] at h ⊢
                  rw [if_neg hdb, if_neg hdb] at h
                  rw [if_neg hdb]
                  exact ih _ _ _ _ _ _ _ _ _ _ _ _ _ h hf1 hk1

theorem pmLoop_of_pullLoop :
    ∀ (fuel : Nat) (que : List Nat) (aux : Graph) (thr thr2 : Thr)
      (g : DeltaMap) (req : Dict Int) (a : Graph) (t : Thr) (g' : DeltaMap),
      pullLoop fuel que (aux, thr, g, req) = .ok (a, t, g') →
      fwdOnly aux → keysSub aux thr2 →
      ∃ t2, pmLoop fuel que (aux, thr2, g, req) = .ok (a, t2, g') := by
  intro fuel
  induction fuel with
  | zero => intro que aux thr thr2 g req a t g' h _ _; exact Res.noConfusion h
  | succ n ih =>
    intro que aux thr thr2 g req a t g' h hf hk
    cases que with
    | nil =>
      simp only [pullLoop] at h
      injection h with h2
      injection h2 with ha h2
      injection h2 with _ hg
      subst ha; subst hg
      exact ⟨thr2, rfl⟩
    | cons v rest =>
      simp only [pullLoop] at h
      simp only [pmLoop]
      obtain ⟨⟨v1, a1, t1, g1, r1, q1⟩, hin, h2⟩ := res_ok_of_bind_ok h
      simp only at h2
      obtain ⟨hveq, hfa, t5, hpm, hka⟩ :=
        pmInner_of_pullInner _ _ _ _ thr2 _ _ _ _ _ _ _ _ _ hin hf hk
      rw [hpm, res_bind_ok]
      exact ih _ _ _ t5 _ _ _ _ _ h2 hfa hka

/-- C8 (amended): `pull` is the exact mirror of `push` — the symmetric
predecessor traversal with the same saturation and "used"-exclusion rules
and mirrored sign semantics — as long as the auxiliary network it walks is
forward-only: on such a network every successful `pull` produces the very
auxiliary graph and delta map of the spec's mirror `pull_mirror`, under any
throughput table covering the graph's nodes.  (The agreement is stated up to
the throughput table, whose incremental bookkeeping differs and is
recomputed before it is next read; on a backward-direction edge `pull`'s
`u, v = v, u` swap replaces the node being pulled into for the rest of the
scan and the two diverge — see the counterexample.) -/
theorem pull_mirrors_push_on_forward {fuel s y : Nat} {h : Int} {aux : Graph}
    {thr thr2 : Thr} {g : DeltaMap} {a : Graph} {t : Thr} {g' : DeltaMap}
    (hf : fwdOnly aux) (hk : keysSub aux thr2)
    (hp : pull fuel s y h aux thr g = .ok (a, t, g')) :
    ∃ t2, pull_mirror fuel s y h aux thr2 g = .ok (a, t2, g') :=
  pmLoop_of_pullLoop _ _ _ _ _ _ _ _ _ _ hp hf hk

/-- Witness for C8's amended mirror equivalence on a concrete forward-only
pull. -/
theorem pull_mirrors_push_on_forward_witness :
    fwdOnly auxFwd ∧ keysSub auxFwd thrFwd ∧
    pull 20 0 2 6 auxFwd thrFwd []
      = .ok (auxFwdOut, [(0, (0, 10)), (1, (0, 2)), (2, (2, 0))], gFwd) ∧
    ∃ t2, pull_mirror 20 0 2 6 auxFwd thrFwd [] = .ok (auxFwdOut, t2, gFwd) :=
  ⟨by decide, by decide, by decide,
    @pull_mirrors_push_on_forward 20 0 2 6 auxFwd thrFwd thrFwd []
      auxFwdOut [(0, (0, 10)), (1, (0, 2)), (2, (2, 0))] gFwd
      (by decide) (by decide) (by decide)⟩

end MPM
